import Mathlib

/-!
Verification of the edo build orchestrator core against its specification.

Each Rust structure or function referenced by the specification is shallowly
embedded as an executable Lean definition, translated from the source under
crates/edo-core.  Character-level behaviour (addresses, media types) is
modelled on lists of characters; map-like state (the storage catalog) is
modelled with association lists whose operations mirror the BTreeMap calls
made by the source.  Hash functions (blake3) enter the model as abstract
function parameters, since only their results flow through the code paths
proved here.
-/

namespace Edo

/-! ## Addresses (crates/edo-core/src/context/address.rs)

An address is an ordered sequence of segments, a Vec of strings in the
source.  Segments are modelled as lists of characters so that joining and
splitting can be reasoned about directly. -/

/-- An address: the field of the Rust struct Addr(Vec of String). -/
abbrev Addr : Type := List (List Char)

/-- Rust str::split on a single separator character: splitting the empty
string yields one empty piece, and every separator occurrence starts a new
piece. -/
def splitOnChar (sep : Char) : List Char → List (List Char)
  | [] => [[]]
  | c :: rest =>
    match splitOnChar sep rest with
    | [] => [[]]
    | cur :: others =>
      if c = sep then [] :: cur :: others else (c :: cur) :: others

/-- Vec::join with a one-character separator, as used by Addr::to_id and
Addr::fmt. -/
def joinSegs : List (List Char) → List Char
  | [] => []
  | [s] => s
  | s :: rest => s ++ '/' :: joinSegs rest

/-- Addr::fmt writes two leading slashes followed by the slash-joined
segments. -/
def addrToString (a : Addr) : List Char :=
  '/' :: '/' :: joinSegs a

/-- str::strip_prefix with the two-slash marker, with unwrap_or falling back
to the input, as in Addr::parse. -/
def stripSlashes : List Char → List Char
  | '/' :: '/' :: rest => rest
  | other => other

/-- Addr::parse: strip a leading double slash then split on slashes. -/
def addrParse (input : List Char) : Addr :=
  splitOnChar '/' (stripSlashes input)

/-! ## Media types (crates/edo-core/src/storage/artifact.rs)

Compression and media-type kinds together form the layer media type.  The
Rust code formats them as vnd.edo.artifact.v1.(kind)(ext) and parses by
first detecting a trailing compression marker with anchored regexes, then
stripping the schema header.  A regex of the form a dot-or-plus followed by
an alternation, anchored at the end of the string, matches exactly the
suffixes listed below; the leftmost match the regex engine reports is the
longest matching suffix, and split_by keeps everything before it. -/

inductive Compression
  | zstd
  | gzip
  | bzip2
  | lz
  | xz
  | none
deriving DecidableEq, Repr

/-- The suffixes matched by the zstd regex in Compression::detect. -/
def zstdSufs : List (List Char) := [".zst".toList, "+zst".toList]

/-- The suffixes matched by the gzip regex, longest first so that find?
picks the suffix the leftmost regex match would pick. -/
def gzipSufs : List (List Char) :=
  [".gzip2".toList, "+gzip2".toList, ".gzip".toList, "+gzip".toList,
   ".gz".toList, "+gz".toList]

/-- The suffixes matched by the bzip regex, longest first. -/
def bzipSufs : List (List Char) :=
  [".bzip2".toList, "+bzip2".toList, ".bzip".toList, "+bzip".toList,
   ".bz2".toList, "+bz2".toList]

/-- The suffixes matched by the lz regex, longest first. -/
def lzSufs : List (List Char) :=
  [".lzma".toList, "+lzma".toList, ".lz4".toList, "+lz4".toList]

/-- The suffixes matched by the xz regex. -/
def xzSufs : List (List Char) := [".xz".toList, "+xz".toList]

/-- All compression suffixes of all five regexes. -/
def allSufs : List (List Char) :=
  zstdSufs ++ gzipSufs ++ bzipSufs ++ lzSufs ++ xzSufs

/-- The longest suffix of s among sufs, mirroring the leftmost anchored
regex match; the lists in sufs are ordered longest first. -/
def findSuffix (sufs : List (List Char)) (s : List Char) : Option (List Char) :=
  sufs.find? (fun u => u.isSuffixOf s)

/-- split_by keeps the part of the input before the match start, which for
an end-anchored match is everything but the matched suffix. -/
def splitBy (s : List Char) (u : List Char) : List Char :=
  s.take (s.length - u.length)

/-- Compression::detect: try the five regexes in source order and strip the
first match; otherwise report no compression. -/
def Compression.detect (s : List Char) : List Char × Compression :=
  match findSuffix zstdSufs s with
  | some u => (splitBy s u, Compression.zstd)
  | Option.none =>
  match findSuffix gzipSufs s with
  | some u => (splitBy s u, Compression.gzip)
  | Option.none =>
  match findSuffix bzipSufs s with
  | some u => (splitBy s u, Compression.bzip2)
  | Option.none =>
  match findSuffix lzSufs s with
  | some u => (splitBy s u, Compression.lz)
  | Option.none =>
  match findSuffix xzSufs s with
  | some u => (splitBy s u, Compression.xz)
  | Option.none => (s, Compression.none)

/-- The Display form of a compression marker. -/
def Compression.ext : Compression → List Char
  | Compression.zstd => ".zst".toList
  | Compression.gzip => ".gz".toList
  | Compression.bzip2 => ".bz2".toList
  | Compression.lz => ".lz4".toList
  | Compression.xz => ".xz".toList
  | Compression.none => []

inductive MediaType
  | manifest
  | file (c : Compression)
  | tar (c : Compression)
  | oci (c : Compression)
  | image (c : Compression)
  | zip (c : Compression)
  | custom (tag : List Char) (c : Compression)
deriving DecidableEq, Repr

/-- The common header vnd.edo.artifact.v1. used by MediaType::fmt. -/
def mtHeader : List Char := "vnd.edo.artifact.v1.".toList

/-- MediaType::fmt. -/
def MediaType.fmt : MediaType → List Char
  | MediaType.manifest => mtHeader ++ "manifest".toList
  | MediaType.file c => mtHeader ++ "file".toList ++ c.ext
  | MediaType.tar c => mtHeader ++ "tar".toList ++ c.ext
  | MediaType.oci c => mtHeader ++ "oci".toList ++ c.ext
  | MediaType.image c => mtHeader ++ "image".toList ++ c.ext
  | MediaType.zip c => mtHeader ++ "zip".toList ++ c.ext
  | MediaType.custom tag c => mtHeader ++ tag ++ c.ext

/-- The two error variants MediaType::from_str can produce. -/
inductive MtErr
  | invalidMediaType
  | schema
deriving DecidableEq, Repr

instance {ε α : Type} [DecidableEq ε] [DecidableEq α] :
    DecidableEq (Except ε α) := fun x y =>
  match x, y with
  | Except.ok a, Except.ok b =>
    if h : a = b then isTrue (by rw [h])
    else isFalse (by intro hh; injection hh; exact h (by assumption))
  | Except.error a, Except.error b =>
    if h : a = b then isTrue (by rw [h])
    else isFalse (by intro hh; injection hh; exact h (by assumption))
  | Except.ok _, Except.error _ => isFalse (by intro hh; exact Except.noConfusion hh)
  | Except.error _, Except.ok _ => isFalse (by intro hh; exact Except.noConfusion hh)

/-- The final match of MediaType::from_str over the remaining kind string,
in source order. -/
def mtKind (tag : List Char) (comp : Compression) : Except MtErr MediaType :=
  if tag = "manifest".toList then Except.ok MediaType.manifest
  else if tag = "file".toList then Except.ok (MediaType.file comp)
  else if tag = "tar".toList then Except.ok (MediaType.tar comp)
  else if tag = "zip".toList then Except.ok (MediaType.zip comp)
  else if tag = "oci".toList then Except.ok (MediaType.oci comp)
  else if tag = "image".toList then Except.ok (MediaType.image comp)
  else Except.ok (MediaType.custom tag comp)

/-- MediaType::from_str: detect compression, check and strip the
vnd.edo.artifact header (16 characters) and the .v1. schema marker
(4 characters), then classify the remaining kind string.  starts_with of a
k-character literal is modelled as comparing the first k characters. -/
def mtFromStr (s : List Char) : Except MtErr MediaType :=
  let p := Compression.detect s
  if p.1.take 16 = "vnd.edo.artifact".toList then
    let r2 := p.1.drop 16
    if r2.take 4 = ".v1.".toList then
      mtKind (r2.drop 4) p.2
    else Except.error MtErr.schema
  else Except.error MtErr.invalidMediaType

/-- The kind names claimed by the closed arms of the from_str match; a
custom tag equal to one of these cannot survive a round trip. -/
def reservedTags : List (List Char) :=
  ["manifest".toList, "file".toList, "tar".toList, "zip".toList,
   "oci".toList, "image".toList]

/-- A custom tag round-trips when it is not a reserved kind name and no
compression suffix matches at the end of the tag preceded by a dot (which
also rules out tags that are a bare compression word such as gz). -/
def tagOk (tag : List Char) : Prop :=
  tag ∉ reservedTags ∧ ∀ u ∈ allSufs, ¬ u.isSuffixOf ('.' :: tag)

instance (tag : List Char) : Decidable (tagOk tag) := by
  unfold tagOk
  infer_instance

/-! ## Association-list maps

BTreeMap state is modelled with association lists whose keys are kept
distinct; mapInsert replaces the binding of an existing key and appends a
new key at the end, mapErase drops the binding. -/

def mapGet {κ β : Type} [DecidableEq κ] (m : List (κ × β)) (k : κ) : Option β :=
  match m with
  | [] => Option.none
  | (k', v) :: rest => if k' = k then some v else mapGet rest k

def mapInsert {κ β : Type} [DecidableEq κ] (m : List (κ × β)) (k : κ) (v : β) :
    List (κ × β) :=
  match m with
  | [] => [(k, v)]
  | (k', v') :: rest =>
    if k' = k then (k, v) :: rest else (k', v') :: mapInsert rest k v

def mapErase {κ β : Type} [DecidableEq κ] (m : List (κ × β)) (k : κ) :
    List (κ × β) :=
  match m with
  | [] => []
  | (k', v') :: rest => if k' = k then rest else (k', v') :: mapErase rest k

/-- BTreeSet::insert on a list kept duplicate-free. -/
def setInsert {α : Type} [DecidableEq α] (s : List α) (a : α) : List α :=
  if a ∈ s then s else s ++ [a]

/-! ## Ids, layers, artifacts
(crates/edo-core/src/storage/id.rs and artifact.rs)

Only the structure of ids and manifests is needed by the storage claims;
names are held as already-normalized strings and the version as its printed
string, which is all that enters Id::prefix.  The provides, requires and
metadata fields of Config never flow into the catalog or backend logic and
are not modelled. -/

structure Id where
  name : String
  package : Option String
  version : Option String
  arch : Option String
  digest : String
deriving DecidableEq, Repr

/-- Id::prefix: package+name-version.arch, everything except the digest. -/
def Id.prefixStr (i : Id) : String :=
  (match i.package with | some p => p ++ "+" | Option.none => "")
    ++ i.name
    ++ (match i.version with | some v => "-" ++ v | Option.none => "")
    ++ (match i.arch with | some a => "." ++ a | Option.none => "")

/-- A manifest layer; the digest field holds the bare hex string stored by
LayerDigest, the platform its printed form. -/
structure Layer where
  mediaType : MediaType
  digest : String
  size : Nat
  platform : Option String
deriving DecidableEq, Repr

structure Config where
  id : Id
deriving DecidableEq, Repr

structure Artifact where
  mediaType : MediaType
  config : Config
  layers : List Layer
deriving DecidableEq, Repr

/-! ## The catalog (crates/edo-core/src/std/storage/catalog.rs) -/

structure Catalog where
  catalog : List (String × List Id)
  manifests : List (Id × Artifact)
  blob_counts : List (String × Int)
deriving DecidableEq, Repr

def Catalog.hasId (c : Catalog) (i : Id) : Bool :=
  (mapGet c.manifests i).isSome

def Catalog.get (c : Catalog) (i : Id) : Option Artifact :=
  mapGet c.manifests i

def Catalog.matching (c : Catalog) (i : Id) : List Id :=
  (mapGet c.catalog i.prefixStr).getD []

/-- One step of the reference-count increment loop in Catalog::add. -/
def addCountStep (bc : List (String × Int)) (l : Layer) : List (String × Int) :=
  mapInsert bc l.digest ((mapGet bc l.digest).getD 0 + 1)

/-- Catalog::add: index the id under the star key and under its prefix,
store the manifest, and increment the count of every layer digest. -/
def Catalog.add (c : Catalog) (a : Artifact) : Catalog :=
  let i := a.config.id
  let cat1 := mapInsert c.catalog "*" (setInsert ((mapGet c.catalog "*").getD []) i)
  let cat2 := mapInsert cat1 i.prefixStr
    (setInsert ((mapGet cat1 i.prefixStr).getD []) i)
  { catalog := cat2
    manifests := mapInsert c.manifests i a
    blob_counts := a.layers.foldl addCountStep c.blob_counts }

def Catalog.count (c : Catalog) (l : Layer) : Int :=
  (mapGet c.blob_counts l.digest).getD 0

/-- One step of the reference-count decrement loop in Catalog::del: absent
keys are skipped, and a count reaching zero or less removes the key. -/
def delCountStep (bc : List (String × Int)) (l : Layer) : List (String × Int) :=
  match mapGet bc l.digest with
  | Option.none => bc
  | some cnt =>
    if cnt - 1 ≤ 0 then mapErase bc l.digest else mapInsert bc l.digest (cnt - 1)

/-- Catalog::del: unindex the id, and if a manifest was stored drop it and
decrement the count of each of its layer digests. -/
def Catalog.del (c : Catalog) (i : Id) : Catalog :=
  let cat1 := mapInsert c.catalog "*"
    (((mapGet c.catalog "*").getD []).erase i)
  let cat2 :=
    match mapGet cat1 i.prefixStr with
    | Option.none => cat1
    | some list =>
      let list' := list.erase i
      if list' = [] then mapErase cat1 i.prefixStr
      else mapInsert cat1 i.prefixStr list'
  match mapGet c.manifests i with
  | Option.none => { c with catalog := cat2 }
  | some a =>
    { catalog := cat2
      manifests := mapErase c.manifests i
      blob_counts := a.layers.foldl delCountStep c.blob_counts }

/-! ## The local backend (crates/edo-core/src/storage/local.rs)

The backend state couples the persisted catalog with the set of blob files
present under blobs/blake3, identified by their digest name. -/

structure BackendState where
  cat : Catalog
  blobs : List String
deriving DecidableEq, Repr

inductive StorageErr
  | layerMissing (digest : String)
  | notFound (i : Id)
  | ioRead (digest : String)
deriving DecidableEq, Repr

/-- The layer-existence scan at the top of LocalBackend::save, which stops
at the first missing blob. -/
def firstMissing (st : BackendState) : List Layer → Option String
  | [] => Option.none
  | l :: rest =>
    if l.digest ∈ st.blobs then firstMissing st rest else some l.digest

/-- LocalBackend::save: refuse with LayerMissing if any layer blob is
absent, otherwise add the manifest to the catalog. -/
def LocalBackend.save (st : BackendState) (a : Artifact) :
    Except StorageErr BackendState :=
  match firstMissing st a.layers with
  | some d => Except.error (StorageErr.layerMissing d)
  | Option.none => Except.ok { st with cat := st.cat.add a }

def LocalBackend.has (st : BackendState) (i : Id) : Bool :=
  st.cat.hasId i

/-- LocalBackend::open: NotFound for a missing id. -/
def LocalBackend.openA (st : BackendState) (i : Id) : Except StorageErr Artifact :=
  match st.cat.get i with
  | some a => Except.ok a
  | Option.none => Except.error (StorageErr.notFound i)

/-- One step of the blob-deletion loop at the end of LocalBackend::del,
driven by the refreshed catalog. -/
def delBlobStep (cat' : Catalog) (bs : List String) (l : Layer) : List String :=
  if cat'.count l ≤ 0 ∧ l.digest ∈ bs then bs.erase l.digest else bs

/-- LocalBackend::del: a missing id is a no-op; otherwise drop the catalog
entry and remove every blob file of the artifact whose refreshed count is
zero or less. -/
def LocalBackend.del (st : BackendState) (i : Id) :
    Except StorageErr BackendState :=
  if LocalBackend.has st i = false then Except.ok st
  else
    match st.cat.get i with
    | Option.none => Except.error (StorageErr.notFound i)
    | some a =>
      let cat' := st.cat.del i
      Except.ok { cat := cat', blobs := a.layers.foldl (delBlobStep cat') st.blobs }

/-- LocalBackend::copy: open the source manifest, swap in the new id, save
the result; blobs are shared. -/
def LocalBackend.copy (st : BackendState) (src dst : Id) :
    Except StorageErr BackendState :=
  match LocalBackend.openA st src with
  | Except.error e => Except.error e
  | Except.ok a => LocalBackend.save st { a with config := { id := dst } }

/-- LocalBackend::prune: delete every catalog entry under the prefix of the
id whose digest differs from it. -/
def LocalBackend.prune (st : BackendState) (i : Id) :
    Except StorageErr BackendState :=
  (st.cat.matching i).foldlM
    (fun s e => if e = i then Except.ok s else LocalBackend.del s e) st

/-! ## Operation sequences over one backend (claim C2) -/

inductive StorageOp
  | save (a : Artifact)
  | del (i : Id)
  | copy (src dst : Id)
  | prune (i : Id)
deriving Repr

/-- Run one backend operation; a failed operation leaves the state as it
was (save and copy return their error before mutating anything). -/
def applyOp (st : BackendState) (op : StorageOp) : BackendState :=
  match
    (match op with
      | StorageOp.save a => LocalBackend.save st a
      | StorageOp.del i => LocalBackend.del st i
      | StorageOp.copy s d => LocalBackend.copy st s d
      | StorageOp.prune i => LocalBackend.prune st i) with
  | Except.ok st' => st'
  | Except.error _ => st

def runOps (st : BackendState) (ops : List StorageOp) : BackendState :=
  ops.foldl applyOp st

/-- A save or copy is fresh when its target id is not yet stored. -/
def opFresh (st : BackendState) : StorageOp → Prop
  | StorageOp.save a => LocalBackend.has st a.config.id = false
  | StorageOp.copy _ d => LocalBackend.has st d = false
  | _ => True

def seqFresh (st : BackendState) : List StorageOp → Prop
  | [] => True
  | op :: rest => opFresh st op ∧ seqFresh (applyOp st op) rest

/-- The number of layer entries with a given digest in a layer list. -/
def countOf (ls : List Layer) (d : String) : Nat :=
  (ls.filter (fun l => l.digest = d)).length

/-- The total number of layer entries with a given digest over all stored
manifests. -/
def totalRefs (m : List (Id × Artifact)) (d : String) : Nat :=
  (m.map (fun p => countOf p.2.layers d)).sum

/-- The number of stored manifests whose layer list contains a layer with
the given digest, the quantity named by the specification. -/
def refManifests (m : List (Id × Artifact)) (d : String) : Nat :=
  (m.filter (fun p => decide (∃ l ∈ p.2.layers, l.digest = d))).length

/-- Blob reference-count soundness for one backend: every stored count is
exactly the number of stored layer entries with that digest and is
positive, every digest referenced by a stored manifest has a count entry,
every blob file digest has a count entry, and the bookkeeping lists are
duplicate-free. -/
def Inv (st : BackendState) : Prop :=
  (∀ p ∈ st.cat.blob_counts, p.2 = (totalRefs st.cat.manifests p.1 : Int) ∧ 0 < p.2) ∧
  (∀ q ∈ st.cat.manifests, ∀ l ∈ q.2.layers,
    (mapGet st.cat.blob_counts l.digest).isSome = true) ∧
  (∀ d ∈ st.blobs, (mapGet st.cat.blob_counts d).isSome = true) ∧
  (st.cat.manifests.map Prod.fst).Nodup ∧
  (st.cat.blob_counts.map Prod.fst).Nodup ∧
  st.blobs.Nodup

instance (st : BackendState) : Decidable (Inv st) := by
  unfold Inv
  infer_instance

/-- The pointwise reading of the count table that the invariant proofs
manipulate: the count of a digest is the total number of stored layer
entries carrying it, with absent keys standing for zero. -/
def countsSound (st : BackendState) : Prop :=
  ∀ d : String,
    match mapGet st.cat.blob_counts d with
    | some k => k = (totalRefs st.cat.manifests d : Int) ∧ 0 < k
    | Option.none => totalRefs st.cat.manifests d = 0

instance decOpFresh (st : BackendState) (op : StorageOp) :
    Decidable (opFresh st op) := by
  cases op <;> unfold opFresh <;> infer_instance

instance decSeqFresh : (ops : List StorageOp) → (st : BackendState) →
    Decidable (seqFresh st ops)
  | [], _ => isTrue trivial
  | op :: rest, st => by
    have i1 := decOpFresh st op
    have i2 := decSeqFresh rest (applyOp st op)
    exact @instDecidableAnd _ _ i1 i2

/-! ## Concrete data for witnesses and counterexamples -/

def wLayer : Layer :=
  { mediaType := MediaType.manifest, digest := "x", size := 1,
    platform := Option.none }

def wId1 : Id :=
  { name := "a", package := Option.none, version := Option.none,
    arch := Option.none, digest := "d1" }

def wId2 : Id :=
  { name := "a", package := Option.none, version := Option.none,
    arch := Option.none, digest := "d2" }

def wArt1 : Artifact :=
  { mediaType := MediaType.manifest, config := { id := wId1 },
    layers := [wLayer] }

def wArt2 : Artifact :=
  { mediaType := MediaType.manifest, config := { id := wId2 },
    layers := [wLayer] }

/-- A backend holding one manifest that references the single blob x. -/
def wState : BackendState :=
  { cat :=
      { catalog := [("*", [wId1]), ("a", [wId1])]
        manifests := [(wId1, wArt1)]
        blob_counts := [("x", 1)] }
    blobs := ["x"] }

/-- A backend with an empty catalog but with the blob x already written,
as it is after finish_layer and before any save. -/
def wStateEmpty : BackendState :=
  { cat := { catalog := [], manifests := [], blob_counts := [] }
    blobs := ["x"] }


/-! ## The storage handle (crates/edo-core/src/storage/mod.rs)

Inner couples the local backend with an ordered list of source backends
(an IndexMap, so priority is insertion order and insert_before(0) puts a
backend in front).  Remote backends appear to fetch_source only through
has, open and read, so they are modelled as read-only views; read is keyed
by the layer digest as in LocalBackend::read. -/

structure RemoteBackend where
  hasA : Id → Bool
  openA : Id → Option Artifact
  readA : String → Option (List Nat)

structure InnerState where
  localB : BackendState
  source : List (String × RemoteBackend)

/-- Inner::add_source_cache appends at the end of the priority list. -/
def addSourceCache (st : InnerState) (name : String) (b : RemoteBackend) :
    InnerState :=
  { st with source := st.source ++ [(name, b)] }

/-- Inner::add_source_cache_front inserts at index zero, taking highest
priority. -/
def addSourceCacheFront (st : InnerState) (name : String) (b : RemoteBackend) :
    InnerState :=
  { st with source := (name, b) :: st.source }

/-- Inner::find_source: scan the source caches in priority order and open
the artifact from the first cache that has the id. -/
def findSource : List (String × RemoteBackend) → Id →
    Except StorageErr (Option (Artifact × RemoteBackend × String))
  | [], _ => Except.ok Option.none
  | (n, c) :: rest, i =>
    if c.hasA i = true then
      match c.openA i with
      | some a => Except.ok (some (a, c, n))
      | Option.none => Except.error (StorageErr.notFound i)
    else findSource rest i

/-- Inner::download: copy every layer of the artifact from the backend into
the local blob store (each copy streams through start_layer and
finish_layer, so the local blob is named by the blake3 of the copied
bytes), then save the manifest locally.  The parallel copy tasks are joined
before the save; they are modelled as a fold that fails if any read
fails. -/
def download (H : List Nat → String) (lb : BackendState) (b : RemoteBackend)
    (a : Artifact) : Except StorageErr BackendState :=
  match a.layers.foldlM
      (fun bs l =>
        match b.readA l.digest with
        | some bytes => Except.ok (setInsert bs (H bytes))
        | Option.none => Except.error (StorageErr.ioRead l.digest)) lb.blobs with
  | Except.error e => Except.error e
  | Except.ok blobs' => LocalBackend.save { cat := lb.cat, blobs := blobs' } a

/-- Inner::fetch_source: return the locally stored artifact when present;
otherwise find the first source cache having the id, download its layers
into the local backend and save the manifest; None when no cache has it. -/
def fetchSource (H : List Nat → String) (st : InnerState) (i : Id) :
    Except StorageErr (Option Artifact × InnerState) :=
  if LocalBackend.has st.localB i = true then
    match LocalBackend.openA st.localB i with
    | Except.error e => Except.error e
    | Except.ok a => Except.ok (some a, st)
  else
    match findSource st.source i with
    | Except.error e => Except.error e
    | Except.ok Option.none => Except.ok (Option.none, st)
    | Except.ok (some (a, c, _)) =>
      match download H st.localB c a with
      | Except.error e => Except.error e
      | Except.ok lb' => Except.ok (some a, { st with localB := lb' })

/-- A hash assigning the byte sequence 7 the digest x. -/
def wHash : List Nat → String :=
  fun bytes => if bytes = [7] then "x" else "other"

/-- A remote cache holding exactly the artifact wArt1 with its blob. -/
def wRemote : RemoteBackend :=
  { hasA := fun j => decide (j = wId1)
    openA := fun j => if j = wId1 then some wArt1 else Option.none
    readA := fun d => if d = "x" then some [7] else Option.none }

/-- A storage handle with an empty local backend and one source cache. -/
def wInner : InnerState :=
  { localB := { cat := { catalog := [], manifests := [], blob_counts := [] }
                blobs := [] }
    source := [("r", wRemote)] }

/-! ## Hashing writer (crates/edo-core/src/util/writer.rs)

The writer wraps an output stream with an incremental blake3 hasher; the
stream itself is not modelled, only the bytes the hasher absorbed, the byte
count, the temp-file name and the optional digest override that set_digest
can install.  The blake3 hex digest enters as an abstract function of the
hashed bytes. -/

structure WriterState where
  target : String
  hashed : List Nat
  digestOverride : Option String
  size : Nat
deriving DecidableEq, Repr

/-- Writer::new as invoked by LocalBackend::start_layer: fresh hasher, no
digest set, size zero. -/
def Writer.new (target : String) : WriterState :=
  { target := target, hashed := [], digestOverride := Option.none, size := 0 }

/-- poll_write returning Ready(Ok(n)): exactly the n accepted bytes update
the hash and the size. -/
def Writer.pollWrite (w : WriterState) (accepted : List Nat) : WriterState :=
  { w with hashed := w.hashed ++ accepted, size := w.size + accepted.length }

/-- Writer::finish: the lowercase hex blake3 of the hashed bytes, unless a
digest override was installed with set_digest. -/
def Writer.finish (blake3hex : List Nat → String) (w : WriterState) : String :=
  w.digestOverride.getD (blake3hex w.hashed)

/-- The layer value LocalBackend::finish_layer builds from the writer. -/
def finishLayerOf (blake3hex : List Nat → String) (media : MediaType)
    (platform : Option String) (w : WriterState) : Layer :=
  { mediaType := media, digest := Writer.finish blake3hex w,
    size := w.size, platform := platform }

/-! ## The resolver (crates/edo-core/src/source/resolver.rs and version.rs)

Semantic versions are triples; a version requirement enters the model as
an arbitrary predicate on versions, standing for semver::VersionReq whose
matching lives in an external crate.  The slice of the resolver pool that
build_requirement consults is the set of interned package names and, per
name, the version sets registered by build_db (a one-element list for
Set::Single, several for Set::Union). -/

structure SemVer where
  major : Nat
  minor : Nat
  patch : Nat
deriving DecidableEq, Repr

structure EdoVersion where
  vendor : String
  version : SemVer
deriving DecidableEq, Repr

/-- EdoVersion::matches delegates to the requirement. -/
def EdoVersion.matches (v : EdoVersion) (req : SemVer → Bool) : Bool :=
  req v.version

/-- Dependency (crates/edo-core/src/source/require.rs). -/
structure Dependency where
  addr : Addr
  kind : String
  name : String
  version : SemVer → Bool
  vendor : Option String

structure ResolverDb where
  poolNames : List String
  nameToVs : List (String × List (List EdoVersion))

inductive SourceErr
  | requirement (name : String) (version : SemVer → Bool)

/-- The filter inside Resolver::build_requirement: candidates of the
dependency name whose version matches the requirement and, when a vendor
is bound, whose vendor equals it. -/
def candidateMatches (db : ResolverDb) (node : Dependency) : List EdoVersion :=
  ((mapGet db.nameToVs node.name).getD []).flatten.filter
    (fun v => v.matches node.version &&
      (match node.vendor with
       | some vd => decide (vd = v.vendor)
       | Option.none => true))

/-- Resolver::build_requirement: fail with Requirement when the name was
never interned or when no candidate survives the filter; otherwise return
a requirement ranging over exactly the filtered candidates. -/
def buildRequirement (db : ResolverDb) (node : Dependency) :
    Except SourceErr (List EdoVersion) :=
  if node.name ∈ db.poolNames then
    let ms := candidateMatches db node
    if ms.isEmpty then
      Except.error (SourceErr.requirement node.name node.version)
    else Except.ok ms
  else Except.error (SourceErr.requirement node.name node.version)

/-- A resolver pool holding versions 1.0.0 and 2.0.0 of foo from two
vendors. -/
def wDb : ResolverDb :=
  { poolNames := ["foo"]
    nameToVs :=
      [("foo",
        [[{ vendor := "v1", version := { major := 1, minor := 0, patch := 0 } }],
         [{ vendor := "v2", version := { major := 2, minor := 0, patch := 0 } }]])] }

/-- A dependency on foo at any version with at least major 1. -/
def wDep : Dependency :=
  { addr := [['a']], kind := "wants", name := "foo",
    version := fun v => decide (1 ≤ v.major), vendor := Option.none }

/-! ## The project builder (crates/edo-core/src/context/builder.rs)

Project::build is modelled as a function of the walked project, the
lockfile contents and the error_on_lock flag.  The blake3 digest of the
serialized need_resolution map enters as an abstract function of that map
(the map iterates in sorted order, being a BTreeMap); node data is an
abstract type.  Registrations and resolver calls are recorded as an effect
list, and the resolution outcome itself (which consults vendors) as an
abstract function, since the claim is about the branches that avoid it. -/

structure Lock (Data : Type) where
  digest : String
  content : List (Addr × Data)

structure ProjectState (Data : Type) where
  backends : List Addr
  vendors : List Addr
  plugins : List Addr
  environments : List Addr
  transforms : List Addr
  need_resolution : List (Addr × Data)

inductive BuildEffect
  | registerPlugin (a : Addr)
  | registerCache (a : Addr)
  | registerVendor (a : Addr)
  | buildDb (name : String)
  | resolveCall
  | registerFarm (a : Addr)
  | registerTransform (a : Addr)
  | writeLock
deriving DecidableEq, Repr

inductive BuildErr
  | dependencyChange
  | malformedLock (a : Addr)
deriving DecidableEq, Repr

structure BuildOutcome (Data : Type) where
  patched : List (Addr × Data)
  effects : List BuildEffect

/-- The lock-reuse loop of Project::build: each unresolved address must
appear in the lock, else MalformedLock. -/
def patchFromLock {Data : Type} (lock : Lock Data)
    (needRes : List (Addr × Data)) : Except BuildErr (List (Addr × Data)) :=
  needRes.mapM (fun p =>
    match mapGet lock.content p.1 with
    | some dta => Except.ok (p.1, dta)
    | Option.none => Except.error (BuildErr.malformedLock p.1))

/-- The full resolution path of Project::build: register plugins and
caches, register every vendor into a fresh resolver, build the candidate
database for each dependency name, run the resolver, patch from vendor
resolution, register farms and transforms, write the lock. -/
def resolutionPath {Data : Type} (depName : Data → String)
    (resolved : Addr → Data) (proj : ProjectState Data) :
    Except BuildErr (BuildOutcome Data) :=
  Except.ok
    { patched := proj.need_resolution.map (fun p => (p.1, resolved p.1))
      effects := proj.plugins.map BuildEffect.registerPlugin
        ++ proj.backends.map BuildEffect.registerCache
        ++ proj.vendors.map BuildEffect.registerVendor
        ++ proj.need_resolution.map (fun p => BuildEffect.buildDb (depName p.2))
        ++ [BuildEffect.resolveCall]
        ++ proj.environments.map BuildEffect.registerFarm
        ++ proj.transforms.map BuildEffect.registerTransform
        ++ [BuildEffect.writeLock] }

/-- Project::build: compute the digest of the need_resolution map; a
lockfile with a matching digest patches every unresolved node from the
lock and registers plugins, caches, farms and transforms without touching
vendors or the resolver; a mismatching digest fails with DependencyChange
when error_on_lock is set and otherwise falls through to resolution, as
does a missing lockfile. -/
def projectBuild {Data : Type} [DecidableEq Data]
    (H : List (Addr × Data) → String) (depName : Data → String)
    (resolved : Addr → Data) (proj : ProjectState Data)
    (lockfile : Option (Lock Data)) (error_on_lock : Bool) :
    Except BuildErr (BuildOutcome Data) :=
  let digest := H proj.need_resolution
  match lockfile with
  | some lock =>
    if lock.digest = digest then
      match patchFromLock lock proj.need_resolution with
      | Except.error e => Except.error e
      | Except.ok patched =>
        Except.ok
          { patched := patched
            effects := proj.plugins.map BuildEffect.registerPlugin
              ++ proj.backends.map BuildEffect.registerCache
              ++ proj.environments.map BuildEffect.registerFarm
              ++ proj.transforms.map BuildEffect.registerTransform }
    else if error_on_lock then Except.error BuildErr.dependencyChange
    else resolutionPath depName resolved proj
  | Option.none => resolutionPath depName resolved proj

/-- A walked project with one vendor, one transform and one unresolved
dependency. -/
def wProj : ProjectState String :=
  { backends := [], vendors := [[['v']]], plugins := [],
    environments := [], transforms := [[['t']]],
    need_resolution := [([['a']], "dep")] }

/-- A digest function assigning the project the digest h. -/
def wHash9 : List (Addr × String) → String := fun _ => "h"

/-- A lock matching the project digest and covering its one address. -/
def wLock : Lock String :=
  { digest := "h", content := [([['a']], "resolvedNode")] }

/-- A lock with a stale digest. -/
def wLockBad : Lock String := { digest := "stale", content := [] }

/-! ## The scheduler (crates/edo-core/src/scheduler/graph.rs and node.rs)

Graph::run executes a DAG whose edges go from a dependency to its
dependent.  Each node carries an atomic status; the run interleaves a
dispatcher (pop the ready queue, spawn a task that marks the node Running
and, when its transform finishes, sends the node index on the completion
channel) with a controller (receive an index, mark it Success, and for
every dependent whose parents are all neither Pending nor Queued and that
is itself Pending, mark it Queued and push it).  The model is that
interleaving as a small-step relation over explicit scheduler states; one
action fires per step, and an action that is not enabled yields none.
Failures and the build-cache short-circuit are not exercised here. -/

inductive NStatus
  | pending
  | queued
  | running
  | failed
  | success
deriving DecidableEq, Repr

/-- A dependency DAG: edges run from a dependency to its dependent, as
built by Graph::add. -/
structure Dag where
  n : Nat
  edges : List (Nat × Nat)
deriving DecidableEq, Repr

/-- The dependencies of a node: sources of its incoming edges, what
daggy's parents walker yields. -/
def parentsOf (g : Dag) (v : Nat) : List Nat :=
  (g.edges.filter (fun e => e.2 = v)).map Prod.fst

/-- The dependents of a node: targets of its outgoing edges, what daggy's
children walker yields. -/
def childrenOf (g : Dag) (v : Nat) : List Nat :=
  (g.edges.filter (fun e => e.1 = v)).map Prod.snd

structure SchedState where
  status : List NStatus
  queue : List Nat
  channel : List Nat
  inflight : Nat
deriving DecidableEq, Repr

def statusOf (s : SchedState) (v : Nat) : NStatus :=
  s.status.getD v NStatus.pending

/-- The controller body for one dependent of a finished node: skip it if
any parent is still Queued or Pending, otherwise queue it if it is itself
Pending.  Statuses already updated for earlier dependents are consulted,
as the source reads the atomics live. -/
def enqueueChild (g : Dag) (acc : List NStatus × List Nat) (c : Nat) :
    List NStatus × List Nat :=
  if (parentsOf g c).any (fun p =>
      decide (acc.1.getD p NStatus.pending = NStatus.queued ∨
        acc.1.getD p NStatus.pending = NStatus.pending)) then acc
  else if acc.1.getD c NStatus.pending = NStatus.pending then
    (acc.1.set c NStatus.queued, acc.2 ++ [c])
  else acc

inductive SchedAct
  | dispatch
  | complete (v : Nat)
  | recv
deriving DecidableEq, Repr

/-- One interleaving step of Graph::run with batch_size workers. -/
def schedStep (g : Dag) (batch : Nat) (s : SchedState) :
    SchedAct → Option SchedState
  | SchedAct.dispatch =>
    match s.queue with
    | [] => Option.none
    | v :: rest =>
      if s.inflight < batch then
        some { s with
          queue := rest
          inflight := s.inflight + 1
          status := s.status.set v NStatus.running }
      else Option.none
  | SchedAct.complete v =>
    if statusOf s v = NStatus.running ∧ v ∉ s.channel then
      some { s with channel := s.channel ++ [v] }
    else Option.none
  | SchedAct.recv =>
    match s.channel with
    | [] => Option.none
    | v :: rest =>
      let st1 := s.status.set v NStatus.success
      let stepped := (childrenOf g v).foldl (enqueueChild g) (st1, [])
      some { status := stepped.1
             queue := s.queue ++ stepped.2
             channel := rest
             inflight := s.inflight - 1 }

/-- Run a whole interleaving; none when some action was not enabled. -/
def runSched (g : Dag) (batch : Nat) (s : SchedState)
    (acts : List SchedAct) : Option SchedState :=
  acts.foldlM (schedStep g batch) s

/-- The DAG in which node 2 depends on nodes 0 and 1. -/
def diamond : Dag := { n := 3, edges := [(0, 2), (1, 2)] }

/-- The initial run state for the diamond: the two leaves seeded Queued in
the ready queue, as Graph::run does before its dispatch loop. -/
def schedInit : SchedState :=
  { status := [NStatus.queued, NStatus.queued, NStatus.pending],
    queue := [0, 1], channel := [], inflight := 0 }

/-- The interleaving in which leaf 0 finishes while leaf 1 is still
running: both leaves dispatched, 0 completes and is received, then the
dispatcher fires again. -/
def racingTrace : List SchedAct :=
  [SchedAct.dispatch, SchedAct.dispatch, SchedAct.complete 0,
   SchedAct.recv, SchedAct.dispatch]

/-! ## Theorems -/

section MapLemmas

variable {κ β : Type} [DecidableEq κ]

theorem mapGet_insert (m : List (κ × β)) (k k' : κ) (v : β) :
    mapGet (mapInsert m k v) k' = if k = k' then some v else mapGet m k' := by
  induction m with
  | nil => simp [mapInsert, mapGet]
  | cons p rest ih =>
    obtain ⟨k0, v0⟩ := p
    by_cases h0 : k0 = k
    · subst h0
      by_cases h1 : k0 = k'
      · subst h1; simp [mapInsert, mapGet]
      · simp [mapInsert, mapGet, h1]
    · by_cases h1 : k0 = k'
      · subst h1
        have : ¬ k = k0 := fun h => h0 h.symm
        simp [mapInsert, mapGet, h0, this]
      · simp [mapInsert, mapGet, h0, h1, ih]

theorem mapGet_mem {m : List (κ × β)} {k : κ} {v : β}
    (h : mapGet m k = some v) : (k, v) ∈ m := by
  induction m with
  | nil => simp [mapGet] at h
  | cons p rest ih =>
    obtain ⟨k0, v0⟩ := p
    by_cases h0 : k0 = k
    · subst h0
      simp [mapGet] at h
      simp [h]
    · simp [mapGet, h0] at h
      exact List.mem_cons_of_mem _ (ih h)

theorem mem_mapGet {m : List (κ × β)} {k : κ} {v : β}
    (hnd : (m.map Prod.fst).Nodup) (h : (k, v) ∈ m) : mapGet m k = some v := by
  induction m with
  | nil => simp at h
  | cons p rest ih =>
    obtain ⟨k0, v0⟩ := p
    simp only [List.map_cons, List.nodup_cons] at hnd
    rcases List.mem_cons.1 h with h | h
    · cases h
      simp [mapGet]
    · have hk : k0 ≠ k := by
        intro he
        exact hnd.1 (he ▸ (List.mem_map.2 ⟨(k, v), h, rfl⟩))
      simp [mapGet, hk]
      exact ih hnd.2 h

theorem mapGet_none_iff (m : List (κ × β)) (k : κ) :
    mapGet m k = Option.none ↔ k ∉ m.map Prod.fst := by
  induction m with
  | nil => simp [mapGet]
  | cons p rest ih =>
    obtain ⟨k0, v0⟩ := p
    by_cases h0 : k0 = k
    · subst h0; simp [mapGet]
    · simp only [mapGet, if_neg h0, List.map_cons, List.mem_cons, not_or]
      rw [ih]
      exact ⟨fun h => ⟨fun he => h0 he.symm, h⟩, fun h => h.2⟩

theorem mapGet_erase (m : List (κ × β)) (k k' : κ)
    (hnd : (m.map Prod.fst).Nodup) :
    mapGet (mapErase m k) k' = if k = k' then Option.none else mapGet m k' := by
  induction m with
  | nil => simp [mapErase, mapGet]
  | cons p rest ih =>
    obtain ⟨k0, v0⟩ := p
    simp only [List.map_cons, List.nodup_cons] at hnd
    by_cases h0 : k0 = k
    · subst h0
      by_cases h1 : k0 = k'
      · subst h1
        simp [mapErase, (mapGet_none_iff rest k0).2 hnd.1]
      · simp [mapErase, mapGet, h1]
    · by_cases h1 : k0 = k'
      · subst h1
        have : ¬ k = k0 := fun h => h0 h.symm
        simp [mapErase, mapGet, h0, this]
      · simp [mapErase, mapGet, h0, h1, ih hnd.2]

theorem keys_mapInsert (m : List (κ × β)) (k : κ) (v : β) :
    (mapInsert m k v).map Prod.fst
      = if k ∈ m.map Prod.fst then m.map Prod.fst else m.map Prod.fst ++ [k] := by
  induction m with
  | nil => simp [mapInsert]
  | cons p rest ih =>
    obtain ⟨k0, v0⟩ := p
    by_cases h0 : k0 = k
    · subst h0; simp [mapInsert]
    · have hne : ¬ k = k0 := fun h => h0 h.symm
      simp only [mapInsert, if_neg h0, List.map_cons, ih]
      by_cases hk : k ∈ rest.map Prod.fst
      · simp [hk, hne]
      · simp [hk, hne]

theorem nodup_mapInsert (m : List (κ × β)) (k : κ) (v : β)
    (hnd : (m.map Prod.fst).Nodup) : ((mapInsert m k v).map Prod.fst).Nodup := by
  rw [keys_mapInsert]
  by_cases hk : k ∈ m.map Prod.fst
  · simpa [hk]
  · simp only [if_neg hk]
    exact List.Nodup.append hnd (List.nodup_singleton k)
      (fun a ha hb => hk (by rwa [List.mem_singleton.1 hb] at ha))

theorem keys_mapErase_sublist (m : List (κ × β)) (k : κ) :
    ((mapErase m k).map Prod.fst).Sublist (m.map Prod.fst) := by
  induction m with
  | nil => simp [mapErase]
  | cons p rest ih =>
    obtain ⟨k0, v0⟩ := p
    by_cases h0 : k0 = k
    · subst h0
      simp only [mapErase, if_pos rfl, List.map_cons]
      exact (List.sublist_cons_self _ _)
    · simp only [mapErase, if_neg h0, List.map_cons]
      exact ih.cons₂ _

theorem nodup_mapErase (m : List (κ × β)) (k : κ)
    (hnd : (m.map Prod.fst).Nodup) : ((mapErase m k).map Prod.fst).Nodup :=
  hnd.sublist (keys_mapErase_sublist m k)

theorem mapInsert_fresh (m : List (κ × β)) (k : κ) (v : β)
    (h : k ∉ m.map Prod.fst) : mapInsert m k v = m ++ [(k, v)] := by
  induction m with
  | nil => simp [mapInsert]
  | cons p rest ih =>
    obtain ⟨k0, v0⟩ := p
    simp only [List.map_cons, List.mem_cons, not_or] at h
    have h0 : k0 ≠ k := fun he => h.1 he.symm
    simp [mapInsert, h0, ih h.2]

end MapLemmas

section CountLemmas

theorem countOf_cons (l : Layer) (rest : List Layer) (d : String) :
    countOf (l :: rest) d = (if l.digest = d then 1 else 0) + countOf rest d := by
  by_cases h : l.digest = d <;>
    simp [countOf, List.filter_cons, h, Nat.add_comm]

theorem countOf_pos_iff (ls : List Layer) (d : String) :
    0 < countOf ls d ↔ ∃ l ∈ ls, l.digest = d := by
  rw [countOf, List.length_pos_iff_exists_mem]
  constructor
  · rintro ⟨l, hl⟩
    rw [List.mem_filter] at hl
    exact ⟨l, hl.1, by simpa using hl.2⟩
  · rintro ⟨l, hl, hd⟩
    exact ⟨l, List.mem_filter.2 ⟨hl, by simpa using hd⟩⟩

theorem totalRefs_append_single (m : List (Id × Artifact)) (i : Id)
    (a : Artifact) (d : String) :
    totalRefs (m ++ [(i, a)]) d = totalRefs m d + countOf a.layers d := by
  simp [totalRefs]

theorem totalRefs_pos_iff (m : List (Id × Artifact)) (d : String) :
    totalRefs m d ≠ 0 ↔ ∃ q ∈ m, 0 < countOf q.2.layers d := by
  rw [totalRefs, Ne, List.sum_eq_zero_iff]
  push_neg
  constructor
  · rintro ⟨x, hx, hxne⟩
    obtain ⟨q, hq, rfl⟩ := List.mem_map.1 hx
    exact ⟨q, hq, Nat.pos_of_ne_zero hxne⟩
  · rintro ⟨q, hq, hpos⟩
    exact ⟨_, List.mem_map.2 ⟨q, hq, rfl⟩, Nat.pos_iff_ne_zero.1 hpos⟩

theorem countOf_le_totalRefs (m : List (Id × Artifact)) (i : Id) (a : Artifact)
    (d : String) (h : (i, a) ∈ m) : countOf a.layers d ≤ totalRefs m d := by
  have hm : countOf a.layers d ∈ m.map (fun p => countOf p.2.layers d) :=
    List.mem_map.2 ⟨(i, a), h, rfl⟩
  exact List.single_le_sum (fun x _ => Nat.zero_le x) _ hm

theorem totalRefs_erase (m : List (Id × Artifact)) (i : Id) (a : Artifact)
    (d : String) (hnd : (m.map Prod.fst).Nodup) (hget : mapGet m i = some a) :
    totalRefs m d = totalRefs (mapErase m i) d + countOf a.layers d := by
  induction m with
  | nil => simp [mapGet] at hget
  | cons p rest ih =>
    obtain ⟨k0, v0⟩ := p
    simp only [List.map_cons, List.nodup_cons] at hnd
    by_cases h0 : k0 = i
    · subst h0
      have hva : v0 = a := by simpa [mapGet] using hget
      subst hva
      simp [mapErase, totalRefs, Nat.add_comm]
    · simp only [mapGet, if_neg h0] at hget
      simp only [mapErase, if_neg h0]
      have := ih hnd.2 hget
      simp only [totalRefs, List.map_cons, List.sum_cons] at this ⊢
      omega

theorem addFold_get (ls : List Layer) : ∀ (bc : List (String × Int)) (d : String),
    mapGet (ls.foldl addCountStep bc) d =
      match mapGet bc d with
      | some k => some (k + countOf ls d)
      | Option.none =>
        if 0 < countOf ls d then some ((countOf ls d : Int)) else Option.none := by
  induction ls with
  | nil =>
    intro bc d
    cases h : mapGet bc d <;> simp [h, countOf]
  | cons l rest ih =>
    intro bc d
    rw [List.foldl_cons, ih (addCountStep bc l) d, countOf_cons]
    by_cases hd : l.digest = d
    · subst hd
      have hstep : mapGet (addCountStep bc l) l.digest
          = some ((mapGet bc l.digest).getD 0 + 1) := by
        rw [addCountStep, mapGet_insert, if_pos rfl]
      rw [hstep]
      cases h : mapGet bc l.digest with
      | none =>
        simp only [h, Option.getD_none, if_pos rfl]
        have : (0 : Int) + 1 + countOf rest l.digest
            = ((1 + countOf rest l.digest : Nat) : Int) := by push_cast; ring
        simp [this]
      | some k =>
        simp only [h, Option.getD_some, if_pos rfl]
        have : k + 1 + (countOf rest l.digest : Int)
            = k + ((1 + countOf rest l.digest : Nat) : Int) := by push_cast; ring
        simp [this]
    · have hstep : mapGet (addCountStep bc l) d = mapGet bc d := by
        rw [addCountStep, mapGet_insert, if_neg hd]
      rw [hstep, if_neg hd]
      cases h : mapGet bc d <;> simp [h]

theorem nodup_addFold (ls : List Layer) : ∀ (bc : List (String × Int)),
    (bc.map Prod.fst).Nodup → ((ls.foldl addCountStep bc).map Prod.fst).Nodup := by
  induction ls with
  | nil => intro bc h; simpa using h
  | cons l rest ih =>
    intro bc h
    rw [List.foldl_cons]
    exact ih _ (nodup_mapInsert _ _ _ h)

theorem nodup_delFold (ls : List Layer) : ∀ (bc : List (String × Int)),
    (bc.map Prod.fst).Nodup → ((ls.foldl delCountStep bc).map Prod.fst).Nodup := by
  induction ls with
  | nil => intro bc h; simpa using h
  | cons l rest ih =>
    intro bc h
    rw [List.foldl_cons]
    apply ih
    rw [delCountStep]
    cases hget : mapGet bc l.digest with
    | none => exact h
    | some cnt =>
      by_cases hle : cnt - 1 ≤ 0
      · simpa [hle] using nodup_mapErase _ _ h
      · simpa [hle] using nodup_mapInsert _ _ _ h

theorem delFold_get (ls : List Layer) : ∀ (bc : List (String × Int)),
    (bc.map Prod.fst).Nodup → ∀ d : String,
    mapGet (ls.foldl delCountStep bc) d =
      match mapGet bc d with
      | Option.none => Option.none
      | some k =>
        if 0 < countOf ls d ∧ k - (countOf ls d : Int) ≤ 0 then Option.none
        else some (k - (countOf ls d : Int)) := by
  induction ls with
  | nil =>
    intro bc _ d
    cases h : mapGet bc d <;> simp [h, countOf]
  | cons l rest ih =>
    intro bc hnd d
    have hnd' : (((delCountStep bc l)).map Prod.fst).Nodup := by
      rw [delCountStep]
      cases hget : mapGet bc l.digest with
      | none => exact hnd
      | some cnt =>
        by_cases hle : cnt - 1 ≤ 0
        · simpa [hle] using nodup_mapErase _ _ hnd
        · simpa [hle] using nodup_mapInsert _ _ _ hnd
    rw [List.foldl_cons, ih (delCountStep bc l) hnd' d, countOf_cons]
    by_cases hd : l.digest = d
    · subst hd
      simp only [if_pos rfl]
      cases h : mapGet bc l.digest with
      | none =>
        have hstep : delCountStep bc l = bc := by simp only [delCountStep, h]
        rw [hstep, h]
      | some k =>
        by_cases hle : k - 1 ≤ 0
        · have hstep : delCountStep bc l = mapErase bc l.digest := by
            simp only [delCountStep, h]
            rw [if_pos hle]
          rw [hstep, mapGet_erase _ _ _ hnd, if_pos rfl]
          simp only [h, if_true]
          push_cast
          split_ifs with h1
          · rfl
          · exfalso
            push_neg at h1
            have := h1 (by omega)
            omega
        · have hstep : delCountStep bc l = mapInsert bc l.digest (k - 1) := by
            simp only [delCountStep, h]
            rw [if_neg hle]
          rw [hstep, mapGet_insert, if_pos rfl]
          simp only [h, if_true]
          push_cast
          split_ifs with h1 h2
          · rfl
          · exfalso
            push_neg at h2
            have := h2 (by omega)
            omega
          · exfalso
            rcases not_and_or.1 h1 with h3 | h3
            · omega
            · omega
          · congr 1
            ring
    · have hstep : mapGet (delCountStep bc l) d = mapGet bc d := by
        rw [delCountStep]
        cases hget : mapGet bc l.digest with
        | none => rfl
        | some cnt =>
          by_cases hle : cnt - 1 ≤ 0
          · simp only [if_pos hle]
            rw [mapGet_erase _ _ _ hnd, if_neg hd]
          · simp only [if_neg hle]
            rw [mapGet_insert, if_neg hd]
      rw [hstep, if_neg hd]
      cases h : mapGet bc d <;> simp [h]

end CountLemmas

section BlobLemmas

theorem nodup_blobFold (cat' : Catalog) (ls : List Layer) :
    ∀ bs : List String, bs.Nodup → (ls.foldl (delBlobStep cat') bs).Nodup := by
  induction ls with
  | nil => intro bs h; simpa using h
  | cons l rest ih =>
    intro bs h
    rw [List.foldl_cons]
    apply ih
    rw [delBlobStep]
    by_cases hc : cat'.count l ≤ 0 ∧ l.digest ∈ bs
    · rw [if_pos hc]; exact h.erase _
    · rw [if_neg hc]; exact h

theorem blobFold_mem (cat' : Catalog) (ls : List Layer) :
    ∀ (bs : List String), bs.Nodup → ∀ d : String,
    (d ∈ ls.foldl (delBlobStep cat') bs ↔
      d ∈ bs ∧ ∀ l ∈ ls, ¬(l.digest = d ∧ cat'.count l ≤ 0)) := by
  induction ls with
  | nil => intro bs _ d; simp
  | cons l rest ih =>
    intro bs hnd d
    have hnd' : (delBlobStep cat' bs l).Nodup := by
      rw [delBlobStep]
      by_cases hc : cat'.count l ≤ 0 ∧ l.digest ∈ bs
      · rw [if_pos hc]; exact hnd.erase _
      · rw [if_neg hc]; exact hnd
    have hmem : d ∈ delBlobStep cat' bs l
        ↔ d ∈ bs ∧ ¬(l.digest = d ∧ cat'.count l ≤ 0) := by
      rw [delBlobStep]
      by_cases hc : cat'.count l ≤ 0 ∧ l.digest ∈ bs
      · rw [if_pos hc]
        by_cases hd : l.digest = d
        · subst hd
          rw [List.Nodup.mem_erase_iff hnd]
          constructor
          · rintro ⟨hne, _⟩; exact absurd rfl hne
          · rintro ⟨_, hbad⟩; exact absurd ⟨rfl, hc.1⟩ hbad
        · rw [List.Nodup.mem_erase_iff hnd]
          constructor
          · rintro ⟨_, hin⟩; exact ⟨hin, fun hbad => hd hbad.1⟩
          · rintro ⟨hin, _⟩; exact ⟨fun he => hd he.symm, hin⟩
      · rw [if_neg hc]
        constructor
        · intro hin
          refine ⟨hin, fun hbad => ?_⟩
          exact hc ⟨hbad.2, hbad.1 ▸ hin⟩
        · intro h; exact h.1
    rw [List.foldl_cons, ih _ hnd' d, hmem, List.forall_mem_cons]
    tauto

end BlobLemmas

section InvLemmas

theorem inv_countsSound (st : BackendState) (hinv : Inv st) : countsSound st := by
  obtain ⟨h1, h2, _, _, _, _⟩ := hinv
  intro d
  cases h : mapGet st.cat.blob_counts d with
  | some k => exact h1 (d, k) (mapGet_mem h)
  | none =>
    by_contra hne
    obtain ⟨q, hq, hpos⟩ := (totalRefs_pos_iff _ _).1 hne
    obtain ⟨l, hl, hld⟩ := (countOf_pos_iff _ _).1 hpos
    have hsome := h2 q hq l hl
    rw [hld, h] at hsome
    simp at hsome

theorem countsSound_inv (st : BackendState)
    (hc : countsSound st)
    (hblob : ∀ d ∈ st.blobs, (mapGet st.cat.blob_counts d).isSome = true)
    (hnd1 : (st.cat.manifests.map Prod.fst).Nodup)
    (hnd2 : (st.cat.blob_counts.map Prod.fst).Nodup)
    (hnd3 : st.blobs.Nodup) : Inv st := by
  refine ⟨?_, ?_, hblob, hnd1, hnd2, hnd3⟩
  · rintro ⟨d, k⟩ hp
    have hget := mem_mapGet hnd2 hp
    have hd := hc d
    rw [hget] at hd
    exact hd
  · intro q hq l hl
    have hpos : 0 < countOf q.2.layers l.digest :=
      (countOf_pos_iff _ _).2 ⟨l, hl, rfl⟩
    have hle := countOf_le_totalRefs _ q.1 q.2 l.digest (by simpa using hq)
    have hd := hc l.digest
    cases h : mapGet st.cat.blob_counts l.digest with
    | some k => simp
    | none =>
      rw [h] at hd
      omega

end InvLemmas

section OpPreservation

theorem inv_save_ok (st : BackendState) (a : Artifact) (st' : BackendState)
    (hinv : Inv st) (hfresh : LocalBackend.has st a.config.id = false)
    (hok : LocalBackend.save st a = Except.ok st') : Inv st' := by
  rw [LocalBackend.save] at hok
  cases hm : firstMissing st a.layers with
  | some d => rw [hm] at hok; exact absurd hok (by simp)
  | none =>
    rw [hm] at hok
    have hst' : st' = { st with cat := st.cat.add a } := by
      injection hok with h
      exact h.symm
    subst hst'
    have hc := inv_countsSound st hinv
    obtain ⟨_, _, hblob, hnd1, hnd2, hnd3⟩ := hinv
    have hfget : mapGet st.cat.manifests a.config.id = Option.none := by
      rw [LocalBackend.has, Catalog.hasId] at hfresh
      cases hg : mapGet st.cat.manifests a.config.id with
      | none => rfl
      | some x => rw [hg] at hfresh; simp at hfresh
    have hkeys : a.config.id ∉ st.cat.manifests.map Prod.fst :=
      (mapGet_none_iff _ _).1 hfget
    have hman : mapInsert st.cat.manifests a.config.id a
        = st.cat.manifests ++ [(a.config.id, a)] :=
      mapInsert_fresh _ _ _ hkeys
    have hcnew : countsSound { st with cat := st.cat.add a } := by
      intro d
      show
        (match mapGet ((st.cat.add a).blob_counts) d with
        | some k => k = (totalRefs ((st.cat.add a).manifests) d : Int) ∧ 0 < k
        | Option.none => totalRefs ((st.cat.add a).manifests) d = 0)
      have hbc : (st.cat.add a).blob_counts
          = a.layers.foldl addCountStep st.cat.blob_counts := rfl
      have hmf : (st.cat.add a).manifests
          = mapInsert st.cat.manifests a.config.id a := rfl
      rw [hbc, hmf, hman, addFold_get, totalRefs_append_single]
      have hd := hc d
      cases h : mapGet st.cat.blob_counts d with
      | some k =>
        rw [h] at hd
        refine ⟨by push_cast; omega, by omega⟩
      | none =>
        rw [h] at hd
        by_cases hz : 0 < countOf a.layers d
        · rw [if_pos hz]
          refine ⟨by push_cast; omega, by omega⟩
        · rw [if_neg hz]
          omega
    apply countsSound_inv _ hcnew
    · intro d hdin
      have hold := hblob d hdin
      show (mapGet (a.layers.foldl addCountStep st.cat.blob_counts) d).isSome = true
      rw [addFold_get]
      cases h : mapGet st.cat.blob_counts d with
      | some k => simp
      | none => rw [h] at hold; simp at hold
    · show ((mapInsert st.cat.manifests a.config.id a).map Prod.fst).Nodup
      exact nodup_mapInsert _ _ _ hnd1
    · exact nodup_addFold _ _ hnd2
    · exact hnd3

theorem del_ok (st : BackendState) (i : Id) :
    ∃ st', LocalBackend.del st i = Except.ok st' := by
  rw [LocalBackend.del]
  by_cases h : LocalBackend.has st i = false
  · rw [if_pos h]
    exact ⟨st, rfl⟩
  · rw [if_neg h]
    have hsome : (st.cat.get i).isSome = true := by
      rw [LocalBackend.has, Catalog.hasId] at h
      rw [Catalog.get]
      cases hg : mapGet st.cat.manifests i with
      | none => rw [hg] at h; simp at h
      | some a => simp
    cases hg : st.cat.get i with
    | none => rw [hg] at hsome; simp at hsome
    | some a => exact ⟨_, rfl⟩

theorem inv_del_ok (st : BackendState) (i : Id) (st' : BackendState)
    (hinv : Inv st) (hok : LocalBackend.del st i = Except.ok st') : Inv st' := by
  rw [LocalBackend.del] at hok
  by_cases h : LocalBackend.has st i = false
  · rw [if_pos h] at hok
    injection hok with h'
    exact h' ▸ hinv
  · rw [if_neg h] at hok
    cases hg : st.cat.get i with
    | none =>
      rw [hg] at hok
      exact absurd hok (by simp)
    | some a =>
      rw [hg] at hok
      have hst' : st' = { cat := st.cat.del i
                          blobs := a.layers.foldl (delBlobStep (st.cat.del i))
                            st.blobs } := by
        injection hok with h'
        exact h'.symm
      subst hst'
      have hc := inv_countsSound st hinv
      obtain ⟨_, _, hblob, hnd1, hnd2, hnd3⟩ := hinv
      rw [Catalog.get] at hg
      have hmain : (st.cat.del i).manifests = mapErase st.cat.manifests i := by
        rw [Catalog.del, hg]
      have hbc : (st.cat.del i).blob_counts
          = a.layers.foldl delCountStep st.cat.blob_counts := by
        rw [Catalog.del, hg]
      have hpair : (i, a) ∈ st.cat.manifests := mapGet_mem hg
      have htr : ∀ d, totalRefs st.cat.manifests d
          = totalRefs (mapErase st.cat.manifests i) d + countOf a.layers d :=
        fun d => totalRefs_erase _ _ _ _ hnd1 hg
      have hcnew : countsSound
          { cat := st.cat.del i
            blobs := a.layers.foldl (delBlobStep (st.cat.del i)) st.blobs } := by
        intro d
        show
          (match mapGet ((st.cat.del i).blob_counts) d with
          | some k => k = (totalRefs ((st.cat.del i).manifests) d : Int) ∧ 0 < k
          | Option.none => totalRefs ((st.cat.del i).manifests) d = 0)
        rw [hbc, hmain, delFold_get _ _ hnd2]
        have hd := hc d
        have htd := htr d
        cases hmg : mapGet st.cat.blob_counts d with
        | none =>
          rw [hmg] at hd
          show totalRefs (mapErase st.cat.manifests i) d = 0
          omega
        | some k =>
          rw [hmg] at hd
          have hd' : k = (totalRefs st.cat.manifests d : Int) ∧ 0 < k := hd
          simp only []
          by_cases hcond : 0 < countOf a.layers d ∧
              k - (countOf a.layers d : Int) ≤ 0
          · rw [if_pos hcond]
            show totalRefs (mapErase st.cat.manifests i) d = 0
            obtain ⟨he, hp⟩ := hd'
            have hc1 := hcond.2
            omega
          · rw [if_neg hcond]
            show k - (countOf a.layers d : Int)
                = (totalRefs (mapErase st.cat.manifests i) d : Int) ∧
              0 < k - (countOf a.layers d : Int)
            obtain ⟨he, hp⟩ := hd'
            rcases not_and_or.1 hcond with h3 | h3
            · have hz : countOf a.layers d = 0 := by omega
              refine ⟨by rw [hz]; push_cast; omega, by omega⟩
            · push_neg at h3
              refine ⟨by omega, by omega⟩
      apply countsSound_inv _ hcnew
      · intro d hdin
        rw [blobFold_mem _ _ _ hnd3] at hdin
        obtain ⟨hdbs, hnobad⟩ := hdin
        have hold := hblob d hdbs
        show (mapGet ((st.cat.del i).blob_counts) d).isSome = true
        cases hnew : mapGet ((st.cat.del i).blob_counts) d with
        | some k => simp
        | none =>
          exfalso
          rw [hbc, delFold_get _ _ hnd2] at hnew
          cases hmg : mapGet st.cat.blob_counts d with
          | none => rw [hmg] at hold; simp at hold
          | some k =>
            rw [hmg] at hnew
            simp only [] at hnew
            by_cases hcond : 0 < countOf a.layers d ∧
                k - (countOf a.layers d : Int) ≤ 0
            · obtain ⟨l, hl, hld⟩ := (countOf_pos_iff _ _).1 hcond.1
              apply hnobad l hl
              refine ⟨hld, ?_⟩
              rw [Catalog.count, hld]
              rw [hbc, delFold_get _ _ hnd2, hmg]
              simp only []
              rw [if_pos hcond]
              simp
            · rw [if_neg hcond] at hnew
              simp at hnew
      · rw [hmain]
        exact nodup_mapErase _ _ hnd1
      · rw [hbc]
        exact nodup_delFold _ _ hnd2
      · exact nodup_blobFold _ _ _ hnd3

theorem inv_copy_run (st : BackendState) (s d : Id)
    (hinv : Inv st) (hfresh : LocalBackend.has st d = false) :
    Inv (match LocalBackend.copy st s d with
      | Except.ok st' => st'
      | Except.error _ => st) := by
  rw [LocalBackend.copy]
  cases ho : LocalBackend.openA st s with
  | error e => exact hinv
  | ok a =>
    simp only []
    cases hs : LocalBackend.save st { a with config := { id := d } } with
    | error e => exact hinv
    | ok st' => exact inv_save_ok st _ st' hinv hfresh hs

theorem inv_pruneFold (i : Id) (es : List Id) : ∀ s : BackendState, Inv s →
    (match es.foldlM
        (fun s e => if e = i then Except.ok s else LocalBackend.del s e) s with
      | Except.ok s' => Inv s'
      | Except.error _ => True) := by
  induction es with
  | nil =>
    intro s h
    simpa [List.foldlM] using h
  | cons e rest ih =>
    intro s h
    rw [List.foldlM_cons]
    by_cases he : e = i
    · rw [if_pos he]
      exact ih s h
    · rw [if_neg he]
      obtain ⟨s', hok⟩ := del_ok s e
      rw [hok]
      exact ih s' (inv_del_ok s e s' h hok)

theorem inv_applyOp (st : BackendState) (op : StorageOp)
    (hinv : Inv st) (hfresh : opFresh st op) : Inv (applyOp st op) := by
  cases op with
  | save a =>
    rw [applyOp]
    cases hs : LocalBackend.save st a with
    | ok st' => exact inv_save_ok st a st' hinv hfresh hs
    | error e => exact hinv
  | del i =>
    rw [applyOp]
    obtain ⟨st', hok⟩ := del_ok st i
    rw [hok]
    exact inv_del_ok st i st' hinv hok
  | copy s d =>
    rw [applyOp]
    exact inv_copy_run st s d hinv hfresh
  | prune i =>
    rw [applyOp]
    have h := inv_pruneFold i (st.cat.matching i) st hinv
    rw [LocalBackend.prune]
    cases hf : (st.cat.matching i).foldlM
        (fun s e => if e = i then Except.ok s else LocalBackend.del s e) st with
    | ok s' => rw [hf] at h; exact h
    | error e => exact hinv

theorem inv_runOps (st : BackendState) (ops : List StorageOp)
    (hinv : Inv st) (hfresh : seqFresh st ops) : Inv (runOps st ops) := by
  induction ops generalizing st with
  | nil => simpa [runOps] using hinv
  | cons op rest ih =>
    obtain ⟨h1, h2⟩ := hfresh
    rw [runOps, List.foldl_cons]
    exact ih (applyOp st op) (inv_applyOp st op hinv h1) h2

end OpPreservation

theorem splitOnChar_ne_nil (sep : Char) (l : List Char) :
    splitOnChar sep l ≠ [] := by
  cases l with
  | nil => simp [splitOnChar]
  | cons c rest =>
    simp only [splitOnChar]
    cases h : splitOnChar sep rest with
    | nil => simp
    | cons cur others =>
      by_cases hc : c = sep <;> simp [hc]

theorem splitOnChar_no_sep (sep : Char) (seg : List Char)
    (h : sep ∉ seg) : splitOnChar sep seg = [seg] := by
  induction seg with
  | nil => rfl
  | cons c rest ih =>
    have hc : c ≠ sep := fun hcs => h (hcs ▸ List.mem_cons_self c rest)
    have hrest : sep ∉ rest := fun hm => h (List.mem_cons_of_mem c hm)
    simp only [splitOnChar, ih hrest]
    simp [hc]

theorem splitOnChar_append (sep : Char) (seg t : List Char)
    (h : sep ∉ seg) :
    splitOnChar sep (seg ++ sep :: t) = seg :: splitOnChar sep t := by
  induction seg with
  | nil =>
    simp only [List.nil_append, splitOnChar]
    cases ht : splitOnChar sep t with
    | nil => exact absurd ht (splitOnChar_ne_nil sep t)
    | cons cur others => simp
  | cons c rest ih =>
    have hc : c ≠ sep := fun hcs => h (hcs ▸ List.mem_cons_self c rest)
    have hrest : sep ∉ rest := fun hm => h (List.mem_cons_of_mem c hm)
    simp only [List.cons_append, splitOnChar, List.append_eq]
    rw [ih hrest]
    simp [hc]

theorem splitOnChar_joinSegs (s : List (List Char)) (hne : s ≠ [])
    (hseg : ∀ seg ∈ s, ('/' : Char) ∉ seg) :
    splitOnChar '/' (joinSegs s) = s := by
  induction s with
  | nil => exact absurd rfl hne
  | cons s0 rest ih =>
    cases rest with
    | nil =>
      simp only [joinSegs]
      exact splitOnChar_no_sep '/' s0 (hseg s0 (List.mem_cons_self s0 []))
    | cons s1 rest1 =>
      have h0 : ('/' : Char) ∉ s0 := hseg s0 (List.mem_cons_self _ _)
      have hrest : ∀ seg ∈ s1 :: rest1, ('/' : Char) ∉ seg := fun seg hm =>
        hseg seg (List.mem_cons_of_mem _ hm)
      simp only [joinSegs]
      rw [splitOnChar_append '/' s0 _ h0, ih (by simp) hrest]

/-- C6: for every non-empty sequence of non-empty slash-free path segments,
parsing the canonical string form of the address built from those segments
returns the original address. -/
theorem addr_roundtrip (s : Addr) (hne : s ≠ [])
    (hseg : ∀ seg ∈ s, seg ≠ [] ∧ ('/' : Char) ∉ seg) :
    addrParse (addrToString s) = s := by
  unfold addrParse addrToString stripSlashes
  exact splitOnChar_joinSegs s hne (fun seg hm => (hseg seg hm).2)

/-- C6 witness: the round trip evaluated at the concrete address with the
two segments a and bc. -/
theorem addr_roundtrip_witness :
    addrParse (addrToString [['a'], ['b', 'c']]) = [['a'], ['b', 'c']] :=
  addr_roundtrip [['a'], ['b', 'c']] (by decide) (by decide)

theorem suffix_of_append_short {u M x : List Char}
    (h : u <:+ M ++ x) (hle : u.length ≤ x.length) : u <:+ x :=
  List.suffix_of_suffix_length_le h (List.suffix_append M x) hle

theorem append_suffix_cases {u M x : List Char} (h : u <:+ M ++ x) :
    u <:+ x ∨ (x.length < u.length ∧ x <:+ u) := by
  by_cases hle : u.length ≤ x.length
  · exact Or.inl (suffix_of_append_short h hle)
  · refine Or.inr ⟨by omega, ?_⟩
    exact List.suffix_of_suffix_length_le (List.suffix_append M x) h (by omega)

/-- A concrete suffix candidate that neither is a suffix of x nor has x as
a suffix can never match at the end of anything of the form M ++ x. -/
theorem isSuffixOf_append_false (u M x : List Char)
    (h1 : ¬ u <:+ x) (h2 : ¬ x <:+ u) : u.isSuffixOf (M ++ x) = false := by
  rw [Bool.eq_false_iff]
  intro hb
  rcases append_suffix_cases (List.isSuffixOf_iff_suffix.1 hb) with h | h
  · exact h1 h
  · exact h2 h.2

theorem isSuffixOf_append_true (u M x : List Char)
    (h : u <:+ x) : u.isSuffixOf (M ++ x) = true :=
  List.isSuffixOf_iff_suffix.2 (h.trans (List.suffix_append M x))

theorem findSuffix_none_of (sufs : List (List Char)) (M x : List Char)
    (h : ∀ u ∈ sufs, ¬ u <:+ x ∧ ¬ x <:+ u) :
    findSuffix sufs (M ++ x) = Option.none := by
  rw [findSuffix, List.find?_eq_none]
  intro u hu
  simp [isSuffixOf_append_false u M x (h u hu).1 (h u hu).2]

theorem splitBy_append (M x : List Char) : splitBy (M ++ x) x = M := by
  rw [splitBy, List.length_append, Nat.add_sub_cancel, List.take_left]

theorem findSuffix_gz (M : List Char) :
    findSuffix gzipSufs (M ++ ".gz".toList) = some (".gz".toList) := by
  have h1 := isSuffixOf_append_false (".gzip2".toList) M (".gz".toList)
    (by decide) (by decide)
  have h2 := isSuffixOf_append_false ("+gzip2".toList) M (".gz".toList)
    (by decide) (by decide)
  have h3 := isSuffixOf_append_false (".gzip".toList) M (".gz".toList)
    (by decide) (by decide)
  have h4 := isSuffixOf_append_false ("+gzip".toList) M (".gz".toList)
    (by decide) (by decide)
  have h5 := isSuffixOf_append_true (".gz".toList) M (".gz".toList)
    (List.suffix_refl _)
  simp only [findSuffix, gzipSufs, List.find?]
  rw [h1, h2, h3, h4, h5]

theorem findSuffix_zst (M : List Char) :
    findSuffix zstdSufs (M ++ ".zst".toList) = some (".zst".toList) := by
  have h1 := isSuffixOf_append_true (".zst".toList) M (".zst".toList)
    (List.suffix_refl _)
  simp only [findSuffix, zstdSufs, List.find?]
  rw [h1]

theorem findSuffix_bz2 (M : List Char) :
    findSuffix bzipSufs (M ++ ".bz2".toList) = some (".bz2".toList) := by
  have h1 := isSuffixOf_append_false (".bzip2".toList) M (".bz2".toList)
    (by decide) (by decide)
  have h2 := isSuffixOf_append_false ("+bzip2".toList) M (".bz2".toList)
    (by decide) (by decide)
  have h3 := isSuffixOf_append_false (".bzip".toList) M (".bz2".toList)
    (by decide) (by decide)
  have h4 := isSuffixOf_append_false ("+bzip".toList) M (".bz2".toList)
    (by decide) (by decide)
  have h5 := isSuffixOf_append_true (".bz2".toList) M (".bz2".toList)
    (List.suffix_refl _)
  simp only [findSuffix, bzipSufs, List.find?]
  rw [h1, h2, h3, h4, h5]

theorem findSuffix_lz4 (M : List Char) :
    findSuffix lzSufs (M ++ ".lz4".toList) = some (".lz4".toList) := by
  have h1 := isSuffixOf_append_false (".lzma".toList) M (".lz4".toList)
    (by decide) (by decide)
  have h2 := isSuffixOf_append_false ("+lzma".toList) M (".lz4".toList)
    (by decide) (by decide)
  have h3 := isSuffixOf_append_true (".lz4".toList) M (".lz4".toList)
    (List.suffix_refl _)
  simp only [findSuffix, lzSufs, List.find?]
  rw [h1, h2, h3]

theorem findSuffix_xz (M : List Char) :
    findSuffix xzSufs (M ++ ".xz".toList) = some (".xz".toList) := by
  have h1 := isSuffixOf_append_true (".xz".toList) M (".xz".toList)
    (List.suffix_refl _)
  simp only [findSuffix, xzSufs, List.find?]
  rw [h1]

/-- Appending the canonical marker of a real compression to any string is
detected as exactly that compression, independent of the string. -/
theorem detect_append_ext (M : List Char) (c : Compression)
    (hc : c ≠ Compression.none) :
    Compression.detect (M ++ c.ext) = (M, c) := by
  cases c with
  | zstd =>
    rw [Compression.ext, Compression.detect, findSuffix_zst]
    simp only [splitBy_append]
  | gzip =>
    rw [Compression.ext, Compression.detect,
      findSuffix_none_of zstdSufs M _ (by decide), findSuffix_gz]
    simp only [splitBy_append]
  | bzip2 =>
    rw [Compression.ext, Compression.detect,
      findSuffix_none_of zstdSufs M _ (by decide),
      findSuffix_none_of gzipSufs M _ (by decide), findSuffix_bz2]
    simp only [splitBy_append]
  | lz =>
    rw [Compression.ext, Compression.detect,
      findSuffix_none_of zstdSufs M _ (by decide),
      findSuffix_none_of gzipSufs M _ (by decide),
      findSuffix_none_of bzipSufs M _ (by decide), findSuffix_lz4]
    simp only [splitBy_append]
  | xz =>
    rw [Compression.ext, Compression.detect,
      findSuffix_none_of zstdSufs M _ (by decide),
      findSuffix_none_of gzipSufs M _ (by decide),
      findSuffix_none_of bzipSufs M _ (by decide),
      findSuffix_none_of lzSufs M _ (by decide), findSuffix_xz]
    simp only [splitBy_append]
  | none => exact absurd rfl hc

theorem findSuffix_header_none (sufs : List (List Char)) (tag : List Char)
    (hsub : ∀ u ∈ sufs, u ∈ allSufs)
    (hclean : ∀ u ∈ allSufs, ¬ u.isSuffixOf ('.' :: tag)) :
    findSuffix sufs (mtHeader ++ tag) = Option.none := by
  rw [findSuffix, List.find?_eq_none]
  intro u hu
  have hu' := hsub u hu
  simp only [Bool.not_eq_true]
  rw [Bool.eq_false_iff]
  intro hb
  have hsplit : mtHeader ++ tag = "vnd.edo.artifact.v1".toList ++ ('.' :: tag) := by
    rw [show mtHeader = "vnd.edo.artifact.v1".toList ++ ['.'] from by decide,
      List.append_assoc, List.singleton_append]
  rw [hsplit] at hb
  rcases append_suffix_cases (List.isSuffixOf_iff_suffix.1 hb) with h | h
  · exact hclean u hu' (List.isSuffixOf_iff_suffix.2 h)
  · obtain ⟨hlt, w, hw⟩ := h
    have hwlen : 1 ≤ w.length := by
      have hlen := congrArg List.length hw
      rw [List.length_append] at hlen
      omega
    have hdot : ('.' : Char) ∈ u.drop 1 := by
      rw [← hw, List.drop_append_of_le_length hwlen]
      exact List.mem_append_right _ (List.mem_cons_self _ _)
    have hnodot : ∀ v ∈ allSufs, ('.' : Char) ∉ v.drop 1 := by decide
    exact hnodot u hu' hdot

/-- C5 counterexample: the claim quantifies over every custom kind, but the
custom tag manifest formatted and reparsed collapses onto the manifest
arm of from_str, so parse of format is not the original value. -/
theorem mediaType_roundtrip_cex :
    mtFromStr (MediaType.fmt (MediaType.custom ("manifest".toList) Compression.none))
      = Except.ok MediaType.manifest ∧
    mtFromStr (MediaType.fmt (MediaType.custom ("manifest".toList) Compression.none))
      ≠ Except.ok (MediaType.custom ("manifest".toList) Compression.none) := by
  constructor
  · decide
  · decide

/-- A clean custom tag appended to the header is detected as uncompressed
and left whole. -/
theorem detect_header_clean (tag : List Char)
    (hclean : ∀ u ∈ allSufs, ¬ u.isSuffixOf ('.' :: tag)) :
    Compression.detect (mtHeader ++ tag) = (mtHeader ++ tag, Compression.none) := by
  rw [Compression.detect,
    findSuffix_header_none zstdSufs tag (by decide) hclean,
    findSuffix_header_none gzipSufs tag (by decide) hclean,
    findSuffix_header_none bzipSufs tag (by decide) hclean,
    findSuffix_header_none lzSufs tag (by decide) hclean,
    findSuffix_header_none xzSufs tag (by decide) hclean]

/-- C5 amended: parse of format is the identity for every plain kind with
every compression, and for every custom kind whose tag is not a reserved
kind name and carries no compression suffix. -/
theorem mediaType_roundtrip (x : MediaType)
    (h : ∀ tag c, x = MediaType.custom tag c → tagOk tag) :
    mtFromStr x.fmt = Except.ok x := by
  cases x with
  | manifest => decide
  | file c => cases c <;> decide
  | tar c => cases c <;> decide
  | oci c => cases c <;> decide
  | image c => cases c <;> decide
  | zip c => cases c <;> decide
  | custom tag c =>
    obtain ⟨hres, hclean⟩ := h tag c rfl
    have key : Compression.detect (MediaType.fmt (MediaType.custom tag c))
        = (mtHeader ++ tag, c) := by
      cases c with
      | none =>
        rw [MediaType.fmt, show Compression.ext Compression.none = [] from rfl,
          List.append_nil]
        exact detect_header_clean tag hclean
      | zstd => exact detect_append_ext (mtHeader ++ tag) Compression.zstd (by simp)
      | gzip => exact detect_append_ext (mtHeader ++ tag) Compression.gzip (by simp)
      | bzip2 => exact detect_append_ext (mtHeader ++ tag) Compression.bzip2 (by simp)
      | lz => exact detect_append_ext (mtHeader ++ tag) Compression.lz (by simp)
      | xz => exact detect_append_ext (mtHeader ++ tag) Compression.xz (by simp)
    have hsplit : mtHeader ++ tag
        = "vnd.edo.artifact".toList ++ (".v1.".toList ++ tag) := by
      rw [show mtHeader = "vnd.edo.artifact".toList ++ ".v1.".toList from by decide,
        List.append_assoc]
    simp only [mtFromStr, key, hsplit]
    rw [List.take_left' (by decide), List.drop_left' (by decide),
      List.take_left' (by decide), List.drop_left' (by decide)]
    simp only [if_pos rfl]
    simp only [reservedTags, List.mem_cons, List.not_mem_nil, or_false,
      not_or] at hres
    rw [mtKind, if_neg hres.1, if_neg hres.2.1, if_neg hres.2.2.1,
      if_neg hres.2.2.2.2.1, if_neg hres.2.2.2.1, if_neg hres.2.2.2.2.2]
    simp

/-- C5 witness: the amended round trip evaluated at the custom kind foo
with gzip compression. -/
theorem mediaType_roundtrip_witness :
    mtFromStr (MediaType.fmt (MediaType.custom ("foo".toList) Compression.gzip))
      = Except.ok (MediaType.custom ("foo".toList) Compression.gzip) :=
  mediaType_roundtrip (MediaType.custom ("foo".toList) Compression.gzip)
    (by intro tag c heq; injection heq with h1 h2; subst h1; decide)

section ClaimC2

/-- C2 counterexample: saving the same artifact twice on a backend leaves a
single stored manifest referencing blob x but a reference count of two, so
blob_counts does not equal the number of referencing manifests after an
arbitrary save sequence. -/
theorem blob_refcount_cex :
    mapGet (runOps wStateEmpty
      [StorageOp.save wArt1, StorageOp.save wArt1]).cat.blob_counts "x"
      = some 2 ∧
    refManifests (runOps wStateEmpty
      [StorageOp.save wArt1, StorageOp.save wArt1]).cat.manifests "x" = 1 := by
  constructor
  · decide
  · decide

/-- C2 amended: starting from a backend whose catalog satisfies the
reference-count invariant, any sequence of save, del, copy and prune
operations in which no save or copy targets an already-stored id preserves
it: every count equals the total number of stored layer entries with that
digest (the number of referencing manifests, when no manifest repeats a
digest), counts are positive, every blob file digest is a key of the count
table, and a digest left with no referencing manifest has no blob file. -/
theorem blob_refcount_sound (st : BackendState) (ops : List StorageOp)
    (hinv : Inv st) (hfresh : seqFresh st ops) :
    Inv (runOps st ops) ∧
      ∀ d : String, totalRefs (runOps st ops).cat.manifests d = 0 →
        d ∉ (runOps st ops).blobs := by
  have h := inv_runOps st ops hinv hfresh
  refine ⟨h, ?_⟩
  intro d h0 hdin
  have hsome := h.2.2.1 d hdin
  cases hg : mapGet (runOps st ops).cat.blob_counts d with
  | none => rw [hg] at hsome; simp at hsome
  | some k =>
    have hk := h.1 (d, k) (mapGet_mem hg)
    rw [h0] at hk
    obtain ⟨he, hp⟩ := hk
    omega

/-- C2 witness: the amended invariant applied to a one-manifest backend
running a fresh save followed by a delete. -/
theorem blob_refcount_sound_witness :
    Inv wState ∧
    seqFresh wState [StorageOp.save wArt2, StorageOp.del wId1] ∧
    (Inv (runOps wState [StorageOp.save wArt2, StorageOp.del wId1]) ∧
      ∀ d : String,
        totalRefs (runOps wState
          [StorageOp.save wArt2, StorageOp.del wId1]).cat.manifests d = 0 →
        d ∉ (runOps wState [StorageOp.save wArt2, StorageOp.del wId1]).blobs) :=
  ⟨by decide, by decide,
    blob_refcount_sound wState [StorageOp.save wArt2, StorageOp.del wId1]
      (by decide) (by decide)⟩

end ClaimC2

section ClaimC3

theorem firstMissing_eq_none (st : BackendState) (ls : List Layer)
    (h : ∀ l ∈ ls, l.digest ∈ st.blobs) : firstMissing st ls = Option.none := by
  induction ls with
  | nil => rfl
  | cons l rest ih =>
    rw [firstMissing, if_pos (h l (List.mem_cons_self _ _))]
    exact ih (fun l' hl' => h l' (List.mem_cons_of_mem _ hl'))

theorem firstMissing_eq_some (st : BackendState) (ls : List Layer)
    (h : ∃ l ∈ ls, l.digest ∉ st.blobs) :
    ∃ d, firstMissing st ls = some d ∧
      ∃ l ∈ ls, l.digest = d ∧ d ∉ st.blobs := by
  induction ls with
  | nil => simp at h
  | cons l rest ih =>
    by_cases hl : l.digest ∈ st.blobs
    · rw [firstMissing, if_pos hl]
      obtain ⟨l', hl', hmiss⟩ := h
      rcases List.mem_cons.1 hl' with he | he
      · exact absurd (he ▸ hl) hmiss
      · obtain ⟨d, hfm, l'', hmem, hdd, hnb⟩ := ih ⟨l', he, hmiss⟩
        exact ⟨d, hfm, l'', List.mem_cons_of_mem _ hmem, hdd, hnb⟩
    · rw [firstMissing, if_neg hl]
      exact ⟨l.digest, rfl, l, List.mem_cons_self _ _, rfl, hl⟩

/-- C3: save fails with LayerMissing naming a digest that is genuinely
missing, and leaves the backend unchanged, exactly when some layer blob is
absent; when all layer blobs are present it succeeds without touching the
blob files and the artifact is then retrievable by its id. -/
theorem save_layer_missing (st : BackendState) (a : Artifact) :
    ((∃ l ∈ a.layers, l.digest ∉ st.blobs) →
      (∃ d, LocalBackend.save st a = Except.error (StorageErr.layerMissing d) ∧
        (∃ l ∈ a.layers, l.digest = d ∧ d ∉ st.blobs)) ∧
      applyOp st (StorageOp.save a) = st) ∧
    ((∀ l ∈ a.layers, l.digest ∈ st.blobs) →
      ∃ st', LocalBackend.save st a = Except.ok st' ∧
        LocalBackend.openA st' a.config.id = Except.ok a ∧
        st'.blobs = st.blobs) := by
  constructor
  · intro h
    obtain ⟨d, hfm, hwit⟩ := firstMissing_eq_some st a.layers h
    have herr : LocalBackend.save st a
        = Except.error (StorageErr.layerMissing d) := by
      rw [LocalBackend.save, hfm]
    refine ⟨⟨d, herr, hwit⟩, ?_⟩
    rw [applyOp]
    rw [herr]
  · intro h
    have hok : LocalBackend.save st a
        = Except.ok { st with cat := st.cat.add a } := by
      rw [LocalBackend.save, firstMissing_eq_none st a.layers h]
    refine ⟨_, hok, ?_, rfl⟩
    rw [LocalBackend.openA]
    have : ({ st with cat := st.cat.add a } : BackendState).cat.get a.config.id
        = some a := by
      rw [Catalog.get]
      show mapGet (mapInsert st.cat.manifests a.config.id a) a.config.id = some a
      rw [mapGet_insert, if_pos rfl]
    rw [this]

/-- C3 witness: the failing branch on an empty blob store names the missing
digest x, and the succeeding branch on a store holding x makes the artifact
retrievable. -/
theorem save_layer_missing_witness :
    ((∃ d, LocalBackend.save
        { cat := { catalog := [], manifests := [], blob_counts := [] }
          blobs := [] } wArt1
        = Except.error (StorageErr.layerMissing d) ∧
      (∃ l ∈ wArt1.layers, l.digest = d ∧ d ∉
        ({ cat := { catalog := [], manifests := [], blob_counts := [] }
           blobs := [] } : BackendState).blobs)) ∧
      applyOp { cat := { catalog := [], manifests := [], blob_counts := [] }
                blobs := [] } (StorageOp.save wArt1)
        = { cat := { catalog := [], manifests := [], blob_counts := [] }
            blobs := [] }) ∧
    (∃ st', LocalBackend.save wStateEmpty wArt1 = Except.ok st' ∧
      LocalBackend.openA st' wArt1.config.id = Except.ok wArt1 ∧
      st'.blobs = wStateEmpty.blobs) :=
  ⟨(save_layer_missing _ wArt1).1 (by decide),
    (save_layer_missing wStateEmpty wArt1).2 (by decide)⟩

end ClaimC3

section ClaimC10

/-- C10: deleting an id the backend does not contain returns success with
the state unchanged, while open on the same missing id fails with
NotFound. -/
theorem del_missing_noop (st : BackendState) (i : Id)
    (h : LocalBackend.has st i = false) :
    LocalBackend.del st i = Except.ok st ∧
      LocalBackend.openA st i = Except.error (StorageErr.notFound i) := by
  constructor
  · rw [LocalBackend.del, if_pos h]
  · rw [LocalBackend.openA]
    have hg : st.cat.get i = Option.none := by
      rw [LocalBackend.has, Catalog.hasId] at h
      rw [Catalog.get]
      cases hm : mapGet st.cat.manifests i with
      | none => rfl
      | some a => rw [hm] at h; simp at h
    rw [hg]

/-- C10 witness: deleting the absent id d2 from the one-manifest backend is
a no-op and opening it is NotFound. -/
theorem del_missing_noop_witness :
    LocalBackend.del wState wId2 = Except.ok wState ∧
      LocalBackend.openA wState wId2
        = Except.error (StorageErr.notFound wId2) :=
  del_missing_noop wState wId2 (by decide)

end ClaimC10

section ClaimC4

theorem writer_fold (bufs : List (List Nat)) : ∀ w : WriterState,
    (bufs.foldl Writer.pollWrite w).hashed = w.hashed ++ bufs.flatten ∧
    (bufs.foldl Writer.pollWrite w).size = w.size + bufs.flatten.length ∧
    (bufs.foldl Writer.pollWrite w).digestOverride = w.digestOverride := by
  induction bufs with
  | nil => intro w; simp
  | cons b rest ih =>
    intro w
    rw [List.foldl_cons]
    obtain ⟨h1, h2, h3⟩ := ih (Writer.pollWrite w b)
    refine ⟨?_, ?_, ?_⟩
    · rw [h1]
      simp [Writer.pollWrite]
    · rw [h2]
      simp [Writer.pollWrite]
      omega
    · rw [h3]
      rfl

/-- C4: for a writer created by start_layer and fed any sequence of
accepted byte chunks, the layer built by finish_layer carries the blake3
digest of exactly the concatenation of the bytes written through the
writer, and its size is the number of those bytes. -/
theorem finish_layer_digest (blake3hex : List Nat → String)
    (media : MediaType) (platform : Option String) (target : String)
    (bufs : List (List Nat)) :
    (finishLayerOf blake3hex media platform
        (bufs.foldl Writer.pollWrite (Writer.new target))).digest
      = blake3hex bufs.flatten ∧
    (finishLayerOf blake3hex media platform
        (bufs.foldl Writer.pollWrite (Writer.new target))).size
      = bufs.flatten.length := by
  obtain ⟨h1, h2, h3⟩ := writer_fold bufs (Writer.new target)
  constructor
  · show Writer.finish blake3hex _ = blake3hex bufs.flatten
    rw [Writer.finish, h3, h1]
    rfl
  · show (bufs.foldl Writer.pollWrite (Writer.new target)).size = _
    rw [h2]
    simp [Writer.new]

end ClaimC4

section ClaimC7

theorem mem_setInsert_self {α : Type} [DecidableEq α] (s : List α) (a : α) :
    a ∈ setInsert s a := by
  rw [setInsert]
  by_cases h : a ∈ s
  · rwa [if_pos h]
  · rw [if_neg h]
    simp

theorem mem_setInsert_of_mem {α : Type} [DecidableEq α] (s : List α) (a b : α)
    (h : b ∈ s) : b ∈ setInsert s a := by
  rw [setInsert]
  by_cases hm : a ∈ s
  · rwa [if_pos hm]
  · rw [if_neg hm]
    exact List.mem_append_left _ h

theorem download_fold (H : List Nat → String) (b : RemoteBackend)
    (ls : List Layer) : ∀ bs : List String,
    (∀ l ∈ ls, ∃ bytes, b.readA l.digest = some bytes ∧ H bytes = l.digest) →
    ∃ bs', (ls.foldlM
        (fun bs l =>
          match b.readA l.digest with
          | some bytes => Except.ok (setInsert bs (H bytes))
          | Option.none => Except.error (StorageErr.ioRead l.digest)) bs)
        = Except.ok bs' ∧
      (∀ d ∈ bs, d ∈ bs') ∧ (∀ l ∈ ls, l.digest ∈ bs') := by
  induction ls with
  | nil =>
    intro bs _
    exact ⟨bs, rfl, fun d hd => hd, by simp⟩
  | cons l rest ih =>
    intro bs h
    obtain ⟨bytes, hr, hh⟩ := h l (List.mem_cons_self _ _)
    obtain ⟨bs', h1, h2, h3⟩ := ih (setInsert bs (H bytes))
      (fun l' hl' => h l' (List.mem_cons_of_mem _ hl'))
    refine ⟨bs', ?_, ?_, ?_⟩
    · rw [List.foldlM_cons]
      simp only [hr]
      exact h1
    · intro d hd
      exact h2 d (mem_setInsert_of_mem _ _ _ hd)
    · intro l' hl'
      rcases List.mem_cons.1 hl' with he | he
      · subst he
        exact h2 _ (hh ▸ mem_setInsert_self bs (H bytes))
      · exact h3 l' he

theorem findSource_skip (i : Id) (pre rest : List (String × RemoteBackend))
    (h : ∀ p ∈ pre, p.2.hasA i = false) :
    findSource (pre ++ rest) i = findSource rest i := by
  induction pre with
  | nil => rfl
  | cons p pre' ih =>
    obtain ⟨n, c⟩ := p
    have hc : c.hasA i = false := h (n, c) (List.mem_cons_self _ _)
    rw [List.cons_append, findSource, hc]
    · simp only [Bool.false_eq_true, if_false]
      exact ih (fun q hq => h q (List.mem_cons_of_mem _ hq))

theorem findSource_none (i : Id) (src : List (String × RemoteBackend))
    (h : ∀ p ∈ src, p.2.hasA i = false) :
    findSource src i = Except.ok Option.none := by
  have := findSource_skip i src [] (by simpa using h)
  simpa using this

/-- C7: fetch_source returns the local artifact, touching no source cache,
when the local backend has the id; otherwise the first source cache in
priority order having the id wins, all its layers are copied into the
local blob store and the manifest is saved locally, making the artifact
locally retrievable; when no cache has the id the result is None. -/
theorem fetch_source_spec (H : List Nat → String) (st : InnerState) (i : Id) :
    (LocalBackend.has st.localB i = true →
      ∃ a, LocalBackend.openA st.localB i = Except.ok a ∧
        ∀ src' : List (String × RemoteBackend),
          fetchSource H { st with source := src' } i
            = Except.ok (some a, { st with source := src' })) ∧
    (LocalBackend.has st.localB i = false →
      ∀ pre n c post, st.source = pre ++ (n, c) :: post →
        (∀ p ∈ pre, p.2.hasA i = false) →
        c.hasA i = true →
        ∀ a, c.openA i = some a →
        (∀ l ∈ a.layers, ∃ bytes, c.readA l.digest = some bytes ∧
          H bytes = l.digest) →
        ∃ lb', fetchSource H st i
            = Except.ok (some a, { st with localB := lb' }) ∧
          LocalBackend.openA lb' a.config.id = Except.ok a) ∧
    (LocalBackend.has st.localB i = false →
      (∀ p ∈ st.source, p.2.hasA i = false) →
      fetchSource H st i = Except.ok (Option.none, st)) := by
  refine ⟨?_, ?_, ?_⟩
  · intro hhas
    have hsome : (st.localB.cat.get i).isSome = true := by
      rw [LocalBackend.has, Catalog.hasId] at hhas
      rw [Catalog.get]
      exact hhas
    cases hg : st.localB.cat.get i with
    | none => rw [hg] at hsome; simp at hsome
    | some a =>
      have hopen : LocalBackend.openA st.localB i = Except.ok a := by
        rw [LocalBackend.openA, hg]
      refine ⟨a, hopen, fun src' => ?_⟩
      rw [fetchSource]
      rw [if_pos hhas, hopen]
  · intro hhas pre n c post hsrc hpre hc a hopen hread
    obtain ⟨bs', hfold, _, hall⟩ :=
      download_fold H c a.layers st.localB.blobs hread
    have hsave : LocalBackend.save
        ({ cat := st.localB.cat, blobs := bs' } : BackendState) a
        = Except.ok { cat := st.localB.cat.add a, blobs := bs' } := by
      rw [LocalBackend.save,
        firstMissing_eq_none _ _ (fun l hl => hall l hl)]
    have hdl : download H st.localB c a
        = Except.ok { cat := st.localB.cat.add a, blobs := bs' } := by
      rw [download, hfold]
      exact hsave
    have hfs : findSource st.source i = Except.ok (some (a, c, n)) := by
      rw [hsrc, findSource_skip i pre _ hpre, findSource, hc]
      simp [hopen]
    refine ⟨{ cat := st.localB.cat.add a, blobs := bs' }, ?_, ?_⟩
    · rw [fetchSource, if_neg (by rw [hhas]; simp), hfs]
      simp only []
      rw [hdl]
    · rw [LocalBackend.openA]
      have hg : ({ cat := st.localB.cat.add a, blobs := bs' }
          : BackendState).cat.get a.config.id = some a := by
        rw [Catalog.get]
        show mapGet (mapInsert st.localB.cat.manifests a.config.id a)
          a.config.id = some a
        rw [mapGet_insert, if_pos rfl]
      rw [hg]
  · intro hhas hnone
    rw [fetchSource, if_neg (by rw [hhas]; simp),
      findSource_none i st.source hnone]

/-- C7 witness: from an empty local backend and one source cache holding
the artifact, fetch_source downloads the blob and saves the manifest so
the artifact becomes locally retrievable. -/
theorem fetch_source_spec_witness :
    LocalBackend.has wInner.localB wId1 = false ∧
    wRemote.hasA wId1 = true ∧
    wRemote.openA wId1 = some wArt1 ∧
    (∃ lb', fetchSource wHash wInner wId1
        = Except.ok (some wArt1, { wInner with localB := lb' }) ∧
      LocalBackend.openA lb' wArt1.config.id = Except.ok wArt1) :=
  ⟨by decide, by decide, by decide,
    (fetch_source_spec wHash wInner wId1).2.1 (by decide) [] "r" wRemote []
      rfl (by simp) (by decide) wArt1 (by decide)
      (by
        intro l hl
        have he : l = wLayer := by
          simpa [wArt1] using hl
        subst he
        exact ⟨[7], by decide, by decide⟩)⟩

end ClaimC7

section ClaimC8

/-- C8: build_requirement fails with Requirement naming the dependency and
its version requirement exactly when no discovered candidate matches the
requirement (and the bound vendor, if any); otherwise it returns a
requirement over exactly the non-empty match set.  The hypothesis records
the pool invariant that every name keyed in the version-set table was
interned. -/
theorem build_requirement_spec (db : ResolverDb) (node : Dependency)
    (hdom : ∀ p ∈ db.nameToVs, p.1 ∈ db.poolNames) :
    (buildRequirement db node
        = Except.error (SourceErr.requirement node.name node.version)
      ↔ candidateMatches db node = []) ∧
    (∀ ms, buildRequirement db node = Except.ok ms →
      ms = candidateMatches db node ∧ ms ≠ []) := by
  constructor
  · constructor
    · intro herr
      by_cases hname : node.name ∈ db.poolNames
      · rw [buildRequirement, if_pos hname] at herr
        by_cases hempty : (candidateMatches db node).isEmpty
        · exact List.isEmpty_iff.1 hempty
        · rw [if_neg (by simpa using hempty)] at herr
          exact absurd herr (by simp)
      · have hget : mapGet db.nameToVs node.name = Option.none := by
          rw [mapGet_none_iff]
          intro hmem
          obtain ⟨p, hp, hfst⟩ := List.mem_map.1 hmem
          exact hname (hfst ▸ hdom p hp)
        rw [candidateMatches, hget]
        rfl
    · intro hempty
      rw [buildRequirement]
      by_cases hname : node.name ∈ db.poolNames
      · rw [if_pos hname]
        rw [if_pos (by simp [hempty])]
      · rw [if_neg hname]
  · intro ms hok
    by_cases hname : node.name ∈ db.poolNames
    · rw [buildRequirement, if_pos hname] at hok
      by_cases hempty : (candidateMatches db node).isEmpty
      · rw [if_pos hempty] at hok
        exact absurd hok (by simp)
      · rw [if_neg hempty] at hok
        have hms : ms = candidateMatches db node := by
          injection hok with h
          exact h.symm
        refine ⟨hms, ?_⟩
        rw [hms]
        intro hnil
        exact hempty (by simp [hnil])
    · rw [buildRequirement, if_neg hname] at hok
      exact absurd hok (by simp)

/-- C8 witness: on the two-vendor pool for foo, the requirement ranges over
exactly the two matching candidates. -/
theorem build_requirement_spec_witness :
    (∀ p ∈ wDb.nameToVs, p.1 ∈ wDb.poolNames) ∧
    ([{ vendor := "v1", version := { major := 1, minor := 0, patch := 0 } },
      { vendor := "v2", version := { major := 2, minor := 0, patch := 0 } }]
        : List EdoVersion) = candidateMatches wDb wDep ∧
    ([{ vendor := "v1", version := { major := 1, minor := 0, patch := 0 } },
      { vendor := "v2", version := { major := 2, minor := 0, patch := 0 } }]
        : List EdoVersion) ≠ [] :=
  ⟨by decide,
    ((build_requirement_spec wDb wDep (by decide)).2 _ rfl).1,
    ((build_requirement_spec wDb wDep (by decide)).2 _ rfl).2⟩

end ClaimC8

section ClaimC9

theorem patchFromLock_ok {Data : Type} [DecidableEq Data] (lock : Lock Data) :
    ∀ needRes : List (Addr × Data),
    (∀ p ∈ needRes, (mapGet lock.content p.1).isSome = true) →
    patchFromLock lock needRes
      = Except.ok (needRes.map (fun p => (p.1, (mapGet lock.content p.1).getD p.2))) := by
  intro needRes
  induction needRes with
  | nil => intro _; rfl
  | cons p rest ih =>
    intro hall
    have hp := hall p (List.mem_cons_self _ _)
    cases hg : mapGet lock.content p.1 with
    | none => rw [hg] at hp; simp at hp
    | some dta =>
      rw [patchFromLock, List.mapM_cons]
      have hrest := ih (fun q hq => hall q (List.mem_cons_of_mem _ hq))
      rw [patchFromLock] at hrest
      simp only [hg, hrest]
      rw [List.map_cons, hg]
      rfl

/-- C9: when a lockfile exists whose digest equals the digest of the
need_resolution map, every unresolved node is patched from the lock refs
and resolution is skipped entirely: no vendor is registered, no candidate
database is built and the resolver is never called; when the digest
differs and error_on_lock is set, the build fails with DependencyChange. -/
theorem build_lock_spec {Data : Type} [DecidableEq Data]
    (H : List (Addr × Data) → String) (depName : Data → String)
    (resolved : Addr → Data) (proj : ProjectState Data) (lock : Lock Data)
    (eol : Bool) :
    (lock.digest = H proj.need_resolution →
      (∀ p ∈ proj.need_resolution, (mapGet lock.content p.1).isSome = true) →
      ∃ out, projectBuild H depName resolved proj (some lock) eol
          = Except.ok out ∧
        out.patched = proj.need_resolution.map
          (fun p => (p.1, (mapGet lock.content p.1).getD p.2)) ∧
        (∀ e ∈ out.effects,
          (∀ a, e ≠ BuildEffect.registerVendor a) ∧
          (∀ nm, e ≠ BuildEffect.buildDb nm) ∧
          e ≠ BuildEffect.resolveCall)) ∧
    (lock.digest ≠ H proj.need_resolution → eol = true →
      projectBuild H depName resolved proj (some lock) eol
        = Except.error BuildErr.dependencyChange) := by
  constructor
  · intro hdig hall
    have hpatch := patchFromLock_ok lock proj.need_resolution hall
    have hrun : projectBuild H depName resolved proj (some lock) eol
        = Except.ok
          { patched := proj.need_resolution.map
              (fun p => (p.1, (mapGet lock.content p.1).getD p.2))
            effects := proj.plugins.map BuildEffect.registerPlugin
              ++ proj.backends.map BuildEffect.registerCache
              ++ proj.environments.map BuildEffect.registerFarm
              ++ proj.transforms.map BuildEffect.registerTransform } := by
      rw [projectBuild]
      simp only [if_pos hdig, hpatch]
    refine ⟨_, hrun, rfl, ?_⟩
    · intro e he
      simp only [List.mem_append, List.mem_map] at he
      have hne : (∀ a, e ≠ BuildEffect.registerVendor a) ∧
          (∀ nm, e ≠ BuildEffect.buildDb nm) ∧
          e ≠ BuildEffect.resolveCall := by
        rcases he with ((⟨a, _, rfl⟩ | ⟨a, _, rfl⟩) | ⟨a, _, rfl⟩) | ⟨a, _, rfl⟩ <;>
          refine ⟨fun a' => by simp, fun nm => by simp, by simp⟩
      exact hne
  · intro hne heol
    subst heol
    rw [projectBuild]
    simp only [if_neg hne, if_pos rfl]
    simp

/-- C9 witness: the matching lock patches the single dependency from the
lock and registers nothing vendor-related, while the stale lock with
error_on_lock set fails with DependencyChange. -/
theorem build_lock_spec_witness :
    wLock.digest = wHash9 wProj.need_resolution ∧
    (∀ p ∈ wProj.need_resolution, (mapGet wLock.content p.1).isSome = true) ∧
    (∃ out, projectBuild wHash9 (fun _ => "n") (fun _ => "r") wProj
        (some wLock) true = Except.ok out ∧
      out.patched = wProj.need_resolution.map
        (fun p => (p.1, (mapGet wLock.content p.1).getD p.2)) ∧
      (∀ e ∈ out.effects,
        (∀ a, e ≠ BuildEffect.registerVendor a) ∧
        (∀ nm, e ≠ BuildEffect.buildDb nm) ∧
        e ≠ BuildEffect.resolveCall)) ∧
    projectBuild wHash9 (fun _ => "n") (fun _ => "r") wProj
      (some wLockBad) true = Except.error BuildErr.dependencyChange :=
  ⟨rfl, by decide,
    (build_lock_spec wHash9 (fun _ => "n") (fun _ => "r") wProj wLock true).1
      rfl (by decide),
    (build_lock_spec wHash9 (fun _ => "n") (fun _ => "r") wProj wLockBad true).2
      (by decide) rfl⟩

end ClaimC9

section ClaimC1

/-- C1: the scheduler violates the claimed ordering guarantee.  In the
diamond DAG where node 2 depends on nodes 0 and 1, the legal interleaving
racingTrace (both leaves dispatched, leaf 0 completes and is processed by
the controller, the dispatcher fires once more) drives node 2 into Running
while its direct dependency 1 is still Running and not Success: the
controller queues a dependent as soon as no parent is Pending or Queued,
so a Running parent does not block dispatch. -/
theorem scheduler_ordering_bug :
    (runSched diamond 8 schedInit racingTrace).isSome = true ∧
    statusOf ((runSched diamond 8 schedInit racingTrace).getD schedInit) 2
      = NStatus.running ∧
    statusOf ((runSched diamond 8 schedInit racingTrace).getD schedInit) 1
      = NStatus.running ∧
    NStatus.running ≠ NStatus.success ∧
    (1, 2) ∈ diamond.edges := by
  decide

end ClaimC1

end Edo
